import Mathlib

/-!
Verification development for the bytestream repository: a bounds-checked,
endianness-aware binary buffer access layer (Reader/Writer cursors over a
caller-owned region, plus a generic field-dispatch serialization layer).

Modelling conventions:
* A buffer region is a list of byte values (natural numbers below 256).
* size_t arithmetic is modelled as natural numbers with explicit reduction
  modulo W64 = 2 ^ 64 exactly where the C++ performs size_t addition or
  subtraction (bounds checks and position updates), so that wrap-around
  behaviour of the source is captured faithfully.
* Every cursor operation is a state transformer of shape
  state -> Except Err result × state, returning the post-state on both the
  success and the failure path (C++ exceptions leave the object observable,
  so the post-failure state matters for the atomicity claims).
* The host platform is little-endian: config.hpp resolves Endian::Native to
  Little and is_little_endian() to true on every compiler branch that the
  supported targets take, so read<T>/write<T> (native order) transfer
  little-endian bytes, read_le/write_le perform no swap, and
  read_be/write_be byte-swap.
-/

namespace Bytestream

/-- Modulus of size_t arithmetic (64-bit platform). -/
def W64 : Nat := 2 ^ 64

theorem W64_eq : W64 = 18446744073709551616 := by norm_num [W64]

/-- Error kinds of the library: UnderflowException, OverflowException and
std::out_of_range as thrown by the source. -/
inductive Err where
  | underflow
  | overflow
  | outOfRange
deriving DecidableEq, Repr

/-- Little-endian byte decomposition of a value into w bytes: the memcpy of a
w-byte arithmetic value on the little-endian host lays down exactly these
bytes (low byte first). -/
def toBytesLE : Nat → Nat → List Nat
  | 0, _ => []
  | w + 1, v => (v % 256) :: toBytesLE w (v / 256)

/-- Little-endian reassembly of a byte list, as performed by memcpy from the
buffer into a w-byte arithmetic value on the little-endian host. -/
def fromBytesLE : List Nat → Nat
  | [] => 0
  | b :: bs => b + 256 * fromBytesLE bs

@[simp] theorem toBytesLE_length (w v : Nat) : (toBytesLE w v).length = w := by
  induction w generalizing v with
  | zero => simp [toBytesLE]
  | succ w ih => simp [toBytesLE, ih]

theorem fromBytesLE_toBytesLE (w v : Nat) :
    fromBytesLE (toBytesLE w v) = v % 2 ^ (8 * w) := by
  induction w generalizing v with
  | zero => simp [toBytesLE, fromBytesLE, Nat.mod_one]
  | succ w ih =>
    simp only [toBytesLE, fromBytesLE, ih]
    have h256 : (256 : Nat) = 2 ^ 8 := by norm_num
    have hpow : 2 ^ (8 * (w + 1)) = 2 ^ 8 * 2 ^ (8 * w) := by
      rw [← pow_add]; ring_nf
    rw [hpow, h256, Nat.mod_mul]

theorem fromBytesLE_toBytesLE_of_lt {w v : Nat} (h : v < 2 ^ (8 * w)) :
    fromBytesLE (toBytesLE w v) = v := by
  rw [fromBytesLE_toBytesLE, Nat.mod_eq_of_lt h]

theorem toBytesLE_mem_lt {w v b : Nat} (h : b ∈ toBytesLE w v) : b < 256 := by
  induction w generalizing v with
  | zero => simp [toBytesLE] at h
  | succ w ih =>
    simp only [toBytesLE, List.mem_cons] at h
    rcases h with h | h
    · subst h
      exact Nat.mod_lt _ (by norm_num)
    · exact ih h

theorem fromBytesLE_lt {bs : List Nat} (h : ∀ b ∈ bs, b < 256) :
    fromBytesLE bs < 2 ^ (8 * bs.length) := by
  induction bs with
  | nil => simp [fromBytesLE]
  | cons b bs ih =>
    have hb : b < 256 := h b (List.mem_cons_self ..)
    have ht : fromBytesLE bs < 2 ^ (8 * bs.length) :=
      ih fun x hx => h x (List.mem_cons_of_mem _ hx)
    simp only [fromBytesLE, List.length_cons]
    have hpow : 2 ^ (8 * (bs.length + 1)) = 256 * 2 ^ (8 * bs.length) := by
      rw [Nat.mul_add, pow_add]; ring_nf
    omega

theorem toBytesLE_fromBytesLE {bs : List Nat} (h : ∀ b ∈ bs, b < 256) :
    toBytesLE bs.length (fromBytesLE bs) = bs := by
  induction bs with
  | nil => simp [toBytesLE]
  | cons b bs ih =>
    have hb : b < 256 := h b (List.mem_cons_self ..)
    have ht : ∀ x ∈ bs, x < 256 := fun x hx => h x (List.mem_cons_of_mem _ hx)
    simp only [List.length_cons, toBytesLE, fromBytesLE]
    congr 1
    · omega
    · have hdiv : (b + 256 * fromBytesLE bs) / 256 = fromBytesLE bs := by omega
      rw [hdiv, ih ht]

/-- Byte swap of a w-byte integer value (config.hpp byteswap_int).  On the
compilers the source supports this is _byteswap_ushort/__builtin_bswap16 and
friends, whose effect is reversing the w bytes of the value; widths other
than 2, 4, 8 fall through to the final else branch and return the value
unchanged (this covers 1-byte values). -/
def byteswap_int (w v : Nat) : Nat :=
  if w = 2 ∨ w = 4 ∨ w = 8 then fromBytesLE ((toBytesLE w v).reverse) else v

/-- Public byteswap (config.hpp byteswap): integral values go through
byteswap_int directly; floating-point values are memcpy-ed to the same-width
unsigned integer, swapped with byteswap_int, and copied back, so at the level
of w-byte bit patterns (how values are modelled here) both paths compute
byteswap_int. -/
def byteswap (w v : Nat) : Nat := byteswap_int w v

theorem byteswap_eq_reverse {w : Nat} (hw : w = 2 ∨ w = 4 ∨ w = 8) (v : Nat) :
    byteswap w v = fromBytesLE ((toBytesLE w v).reverse) := by
  simp [byteswap, byteswap_int, hw]

theorem toBytesLE_byteswap {w : Nat} (hw : w = 2 ∨ w = 4 ∨ w = 8) (v : Nat) :
    toBytesLE w (byteswap w v) = (toBytesLE w v).reverse := by
  rw [byteswap_eq_reverse hw]
  have hlen : (toBytesLE w v).reverse.length = w := by simp
  have hmem : ∀ b ∈ (toBytesLE w v).reverse, b < 256 := by
    intro b hb
    exact toBytesLE_mem_lt (List.mem_reverse.mp hb)
  calc toBytesLE w (fromBytesLE (toBytesLE w v).reverse)
      = toBytesLE (toBytesLE w v).reverse.length
          (fromBytesLE (toBytesLE w v).reverse) := by rw [hlen]
    _ = (toBytesLE w v).reverse := toBytesLE_fromBytesLE hmem

theorem byteswap_lt {w : Nat} (hw : w = 2 ∨ w = 4 ∨ w = 8) (v : Nat) :
    byteswap w v < 2 ^ (8 * w) := by
  rw [byteswap_eq_reverse hw]
  have hmem : ∀ b ∈ (toBytesLE w v).reverse, b < 256 := by
    intro b hb
    exact toBytesLE_mem_lt (List.mem_reverse.mp hb)
  have := fromBytesLE_lt hmem
  simpa using this

theorem byteswap_byteswap {w : Nat} (hw : w = 1 ∨ w = 2 ∨ w = 4 ∨ w = 8)
    {v : Nat} (hv : v < 2 ^ (8 * w)) :
    byteswap w (byteswap w v) = v := by
  rcases hw with hw | hw
  · simp [byteswap, byteswap_int, hw]
  · rw [byteswap_eq_reverse hw (byteswap w v), toBytesLE_byteswap hw v,
      List.reverse_reverse, fromBytesLE_toBytesLE_of_lt hv]

/-! ## Reader (include/bytestream/reader.hpp)

A Reader aliases a byte region [data_, data_ + size_) and tracks a mutable
position.  The region is modelled by the list of bytes it contains, so
size() is the length of that list.  Each operation returns the post-call
state on both the success and the failure path, because a thrown exception
leaves the C++ object observable. -/

structure Reader where
  data : List Nat
  pos : Nat
deriving DecidableEq, Repr

def Reader.size (r : Reader) : Nat := r.data.length

def Reader.remaining (r : Reader) : Nat := r.size - r.pos

/-- Bounds check of the Reader: throws UnderflowException when
position_ + bytes > size_, with the sum computed in size_t (mod W64). -/
def Reader.check_bounds (r : Reader) (bytes : Nat) : Except Err Unit :=
  if (r.pos + bytes) % W64 > r.size then .error .underflow else .ok ()

/-- Reader::seek: throws std::out_of_range when pos > size_, otherwise sets
the position (landing exactly at size_ is allowed). -/
def Reader.seek (r : Reader) (p : Nat) : Except Err Unit × Reader :=
  if p > r.size then (.error .outOfRange, r) else (.ok (), { r with pos := p })

/-- Reader::skip: check_bounds(bytes) then position_ += bytes (size_t). -/
def Reader.skip (r : Reader) (n : Nat) : Except Err Unit × Reader :=
  match r.check_bounds n with
  | .error e => (.error e, r)
  | .ok _ => (.ok (), { r with pos := (r.pos + n) % W64 })

/-- Value of the size_t expression (position_ + alignment - 1) & ~(alignment - 1)
from Reader::align / Writer::align: the additions, the subtractions and the
complement are all performed in 64-bit size_t arithmetic. -/
def alignedPos (pos a : Nat) : Nat :=
  ((pos + a + (W64 - 1)) % W64) &&& ((W64 - 1) ^^^ ((a + (W64 - 1)) % W64))

/-- Reader::align: computes the aligned position with the bit mask and then
delegates to seek (so an out-of-range aligned position throws
std::out_of_range, not UnderflowException).  The source asserts that the
alignment is a nonzero power of two. -/
def Reader.align (r : Reader) (a : Nat) : Except Err Unit × Reader :=
  r.seek (alignedPos r.pos a)

/-- Reader::subview: offset check, then the SIZE_MAX sentinel for an omitted
length selects extend-to-end, then the extent check offset + actual > size_
(size_t addition), and on success a fresh Reader over
[data_ + offset, data_ + offset + actual) with position 0.  The parent state
is returned unchanged alongside (the method mutates nothing). -/
def Reader.subview (r : Reader) (offset length : Nat) :
    Except Err Reader × Reader :=
  if offset > r.size then (.error .outOfRange, r)
  else
    let actual := if length = W64 - 1 then r.size - offset else length
    if (offset + actual) % W64 > r.size then (.error .outOfRange, r)
    else (.ok ⟨(r.data.drop offset).take actual, 0⟩, r)

/-- Reader::read<T>: check_bounds(sizeof T), memcpy of the w bytes at the
position into the value (little-endian host order), advance.  When the
bounds check passes spuriously because position_ + bytes wrapped mod 2^64,
the C++ memcpy reads out of bounds (undefined behaviour); the model then
returns only the in-region bytes, and no theorem in this file relies on the
value produced in that regime. -/
def Reader.read (r : Reader) (w : Nat) : Except Err Nat × Reader :=
  match r.check_bounds w with
  | .error e => (.error e, r)
  | .ok _ => (.ok (fromBytesLE ((r.data.drop r.pos).take w)),
              { r with pos := (r.pos + w) % W64 })

/-- Reader::read_le<T>: read, then byteswap only when the host is big-endian;
the host is little-endian, so no swap. -/
def Reader.read_le (r : Reader) (w : Nat) : Except Err Nat × Reader :=
  r.read w

/-- Reader::read_be<T>: read, then byteswap when sizeof(T) > 1 (the host is
little-endian). -/
def Reader.read_be (r : Reader) (w : Nat) : Except Err Nat × Reader :=
  match r.read w with
  | (.ok v, r') => (.ok (if 1 < w then byteswap w v else v), r')
  | (.error e, r') => (.error e, r')

/-- Reader::peek<T>: saves position_, performs read<T>, restores position_.
When the read throws, the restoring store is skipped, but the failed read
left the position untouched (its bounds check runs first). -/
def Reader.peek (r : Reader) (w : Nat) : Except Err Nat × Reader :=
  match r.read w with
  | (.ok v, r') => (.ok v, { r' with pos := r.pos })
  | (.error e, r') => (.error e, r')

/-- Reader::peek_le<T>: like peek but through read_le. -/
def Reader.peek_le (r : Reader) (w : Nat) : Except Err Nat × Reader :=
  match r.read_le w with
  | (.ok v, r') => (.ok v, { r' with pos := r.pos })
  | (.error e, r') => (.error e, r')

/-- Reader::peek_be<T>: like peek but through read_be. -/
def Reader.peek_be (r : Reader) (w : Nat) : Except Err Nat × Reader :=
  match r.read_be w with
  | (.ok v, r') => (.ok v, { r' with pos := r.pos })
  | (.error e, r') => (.error e, r')

/-- Reader::read_string(length): check_bounds(length), copy length bytes into
an owned string, advance. -/
def Reader.read_string (r : Reader) (len : Nat) : Except Err (List Nat) × Reader :=
  match r.check_bounds len with
  | .error e => (.error e, r)
  | .ok _ => (.ok ((r.data.drop r.pos).take len),
              { r with pos := (r.pos + len) % W64 })

/-- Reader::read_sized_string_le: read_le<uint32_t> length prefix, then
read_string(len).  If the prefix read succeeded and the body read throws, the
position stays advanced past the prefix. -/
def Reader.read_sized_string_le (r : Reader) : Except Err (List Nat) × Reader :=
  match r.read_le 4 with
  | (.ok len, r') => r'.read_string len
  | (.error e, r') => (.error e, r')

/-- Reader::read_sized_string_be: read_be<uint32_t> length prefix, then
read_string(len). -/
def Reader.read_sized_string_be (r : Reader) : Except Err (List Nat) × Reader :=
  match r.read_be 4 with
  | (.ok len, r') => r'.read_string len
  | (.error e, r') => (.error e, r')

/-- Index of the first zero byte of a list, as computed by
std::memchr(start, 0, n): none when no zero byte occurs. -/
def memchr0 : List Nat → Option Nat
  | [] => none
  | b :: bs => if b = 0 then some 0 else (memchr0 bs).map (· + 1)

/-- Reader::read_cstring: memchr for the first zero byte in
[position_, size_); UnderflowException when there is none, otherwise the
bytes before it are returned and the position advances past the
terminator (position_ += len + 1 in size_t). -/
def Reader.read_cstring (r : Reader) : Except Err (List Nat) × Reader :=
  match memchr0 (r.data.drop r.pos) with
  | none => (.error .underflow, r)
  | some len => (.ok ((r.data.drop r.pos).take len),
                 { r with pos := (r.pos + len + 1) % W64 })

/-! ## Writer (canonical Writer of the repository)

The Writer owns the same cursor bookkeeping over a mutable region; write
operations funnel through check(n) (OverflowException) before touching
memory. -/

structure Writer where
  buf : List Nat
  pos : Nat
deriving DecidableEq, Repr

def Writer.size (wr : Writer) : Nat := wr.buf.length

def Writer.remaining (wr : Writer) : Nat := wr.size - wr.pos

/-- Bounds check of the Writer: throws OverflowException when
pos_ + n > size_, with the sum computed in size_t (mod W64). -/
def Writer.check (wr : Writer) (n : Nat) : Except Err Unit :=
  if (wr.pos + n) % W64 > wr.size then .error .overflow else .ok ()

/-- Effect of std::memcpy(data_ + p, src, n) / std::memset on the region:
the n bytes at [p, p + n) are replaced by bs (callers are guarded by the
bounds check, so p + bs.length ≤ buf.length at every use that matters). -/
def setBytes (buf : List Nat) (p : Nat) (bs : List Nat) : List Nat :=
  buf.take p ++ bs ++ buf.drop (p + bs.length)

/-- Writer::seek: std::out_of_range when p > size_. -/
def Writer.seek (wr : Writer) (p : Nat) : Except Err Unit × Writer :=
  if p > wr.size then (.error .outOfRange, wr)
  else (.ok (), { wr with pos := p })

/-- Writer::skip: check(n) then pos_ += n. -/
def Writer.skip (wr : Writer) (n : Nat) : Except Err Unit × Writer :=
  match wr.check n with
  | .error e => (.error e, wr)
  | .ok _ => (.ok (), { wr with pos := (wr.pos + n) % W64 })

/-- Writer::fill_bytes: check(n), memset n copies of the fill byte, advance. -/
def Writer.fill_bytes (wr : Writer) (b n : Nat) : Except Err Unit × Writer :=
  match wr.check n with
  | .error e => (.error e, wr)
  | .ok _ => (.ok (), { buf := setBytes wr.buf wr.pos (List.replicate n b),
                        pos := (wr.pos + n) % W64 })

/-- Writer::align(alignment, fill): the same mask computation as the Reader,
then pad = aligned - pos_ (size_t subtraction) and, only when pad is
nonzero, fill_bytes(fill, pad) — so failure surfaces as OverflowException
from the fill and an already-aligned position never fails. -/
def Writer.align (wr : Writer) (a fill : Nat) : Except Err Unit × Writer :=
  let aligned := alignedPos wr.pos a
  let pad := (aligned + W64 - wr.pos) % W64
  if pad ≠ 0 then wr.fill_bytes fill pad else (.ok (), wr)

/-- Writer::subview: same checks and sentinel as Reader::subview, returning a
fresh Writer over the sub-range with position 0; parent state unchanged. -/
def Writer.subview (wr : Writer) (offset length : Nat) :
    Except Err Writer × Writer :=
  if offset > wr.size then (.error .outOfRange, wr)
  else
    let actual := if length = W64 - 1 then wr.size - offset else length
    if (offset + actual) % W64 > wr.size then (.error .outOfRange, wr)
    else (.ok ⟨(wr.buf.drop offset).take actual, 0⟩, wr)

/-- Writer::write<T>: check(sizeof T), memcpy the w bytes of the value at the
position (little-endian host order), advance. -/
def Writer.write (wr : Writer) (w v : Nat) : Except Err Unit × Writer :=
  match wr.check w with
  | .error e => (.error e, wr)
  | .ok _ => (.ok (), { buf := setBytes wr.buf wr.pos (toBytesLE w v),
                        pos := (wr.pos + w) % W64 })

/-- Writer::write_le<T>: byteswap only on a big-endian host, then write; the
host is little-endian, so it writes the value directly. -/
def Writer.write_le (wr : Writer) (w v : Nat) : Except Err Unit × Writer :=
  wr.write w v

/-- Writer::write_be<T>: byteswap when sizeof(T) > 1 (little-endian host),
then write. -/
def Writer.write_be (wr : Writer) (w v : Nat) : Except Err Unit × Writer :=
  wr.write w (if 1 < w then byteswap w v else v)

/-- Writer::write_bytes(src, n): check(n), memcpy, advance. -/
def Writer.write_bytes (wr : Writer) (src : List Nat) : Except Err Unit × Writer :=
  match wr.check src.length with
  | .error e => (.error e, wr)
  | .ok _ => (.ok (), { buf := setBytes wr.buf wr.pos src,
                        pos := (wr.pos + src.length) % W64 })

/-- Writer::write_string: raw byte copy of the text, no prefix or
terminator. -/
def Writer.write_string (wr : Writer) (s : List Nat) : Except Err Unit × Writer :=
  wr.write_bytes s

/-- Writer::write_sized_string_le: write_le<uint32_t>(s.size()) — the length
truncated to 32 bits — then the raw bytes.  If the prefix write succeeded
and the body write throws, the prefix bytes are already stored and the
position stays advanced past them. -/
def Writer.write_sized_string_le (wr : Writer) (s : List Nat) :
    Except Err Unit × Writer :=
  match wr.write_le 4 (s.length % 2 ^ 32) with
  | (.ok _, wr') => wr'.write_string s
  | (.error e, wr') => (.error e, wr')

/-- Writer::write_sized_string_be: big-endian length prefix, then the raw
bytes. -/
def Writer.write_sized_string_be (wr : Writer) (s : List Nat) :
    Except Err Unit × Writer :=
  match wr.write_be 4 (s.length % 2 ^ 32) with
  | (.ok _, wr') => wr'.write_string s
  | (.error e, wr') => (.error e, wr')

/-- Writer::write_cstring: the raw bytes of the text followed by one zero
byte (write<uint8_t>(0)). -/
def Writer.write_cstring (wr : Writer) (s : List Nat) : Except Err Unit × Writer :=
  match wr.write_bytes s with
  | (.ok _, wr') => wr'.write 1 0
  | (.error e, wr') => (.error e, wr')

/-- Writer::as_reader: a fresh Reader over the whole region, position 0. -/
def Writer.as_reader (wr : Writer) : Reader := ⟨wr.buf, 0⟩

/-! ## Field dispatch layer (include/bytestream/serialization.hpp)

write_vector / read_vector are generic over the element type: each element
goes through the compile-time write_field / read_field dispatch.  The model
abstracts the dispatched per-element routine as a state-transforming
function of the same shape as every other cursor operation. -/

/-- Loop body of write_vector: write each element in list order through the
per-element dispatch, propagating the first exception. -/
def writeElems {α : Type} (wf : Writer → α → Except Err Unit × Writer) :
    List α → Writer → Except Err Unit × Writer
  | [], wr => (.ok (), wr)
  | x :: xs, wr =>
    match wf wr x with
    | (.ok _, wr') => writeElems wf xs wr'
    | (.error e, wr') => (.error e, wr')

/-- write_vector: a 4-byte little-endian element count
(static_cast<uint32_t>(v.size())), then each element via write_field. -/
def write_vector {α : Type} (wf : Writer → α → Except Err Unit × Writer)
    (wr : Writer) (v : List α) : Except Err Unit × Writer :=
  match wr.write_le 4 (v.length % 2 ^ 32) with
  | (.ok _, wr') => writeElems wf v wr'
  | (.error e, wr') => (.error e, wr')

/-- Loop body of read_vector: decode exactly n elements through the
per-element dispatch, collecting them in order. -/
def readElems {α : Type} (rf : Reader → Except Err α × Reader) :
    Nat → Reader → Except Err (List α) × Reader
  | 0, r => (.ok [], r)
  | n + 1, r =>
    match rf r with
    | (.ok x, r') =>
      match readElems rf n r' with
      | (.ok xs, r'') => (.ok (x :: xs), r'')
      | (.error e, r'') => (.error e, r'')
    | (.error e, r') => (.error e, r')

/-- read_vector: read the 4-byte little-endian count, then decode exactly
that many elements via read_field. -/
def read_vector {α : Type} (rf : Reader → Except Err α × Reader)
    (r : Reader) : Except Err (List α) × Reader :=
  match r.read_le 4 with
  | (.ok n, r') => readElems rf n r'
  | (.error e, r') => (.error e, r')

/-! ## Basic facts about the embedding -/

theorem W64_pos : 0 < W64 := by norm_num [W64]

theorem mod_W64_of_lt {n : Nat} (h : n < W64) : n % W64 = n := Nat.mod_eq_of_lt h

theorem Reader.check_bounds_ok {r : Reader} {n : Nat} (hsum : r.pos + n < W64)
    (h : r.pos + n ≤ r.size) : r.check_bounds n = .ok () := by
  simp [Reader.check_bounds, mod_W64_of_lt hsum]
  omega

theorem Reader.check_bounds_error {r : Reader} {n : Nat} (hsum : r.pos + n < W64)
    (h : r.size < r.pos + n) : r.check_bounds n = .error .underflow := by
  simp [Reader.check_bounds, mod_W64_of_lt hsum]
  omega

theorem Writer.check_ok {wr : Writer} {n : Nat} (hsum : wr.pos + n < W64)
    (h : wr.pos + n ≤ wr.size) : wr.check n = .ok () := by
  simp [Writer.check, mod_W64_of_lt hsum]
  omega

theorem Writer.check_error {wr : Writer} {n : Nat} (hsum : wr.pos + n < W64)
    (h : wr.size < wr.pos + n) : wr.check n = .error .overflow := by
  simp [Writer.check, mod_W64_of_lt hsum]
  omega

@[simp] theorem setBytes_length {buf bs : List Nat} {p : Nat}
    (h : p + bs.length ≤ buf.length) :
    (setBytes buf p bs).length = buf.length := by
  simp [setBytes]
  omega

theorem setBytes_take {buf bs : List Nat} {p : Nat} (h : p ≤ buf.length) :
    (setBytes buf p bs).take p = buf.take p := by
  have hlen : (buf.take p).length = p := by simp; omega
  simp only [setBytes, List.append_assoc]
  exact List.take_left' hlen

theorem setBytes_drop {buf bs : List Nat} {p : Nat} (h : p ≤ buf.length) :
    (setBytes buf p bs).drop p = bs ++ buf.drop (p + bs.length) := by
  have hlen : (buf.take p).length = p := by simp; omega
  simp only [setBytes, List.append_assoc]
  exact List.drop_left' hlen

theorem setBytes_slice {buf bs : List Nat} {p : Nat} (h : p ≤ buf.length) :
    ((setBytes buf p bs).drop p).take bs.length = bs := by
  rw [setBytes_drop h]
  exact List.take_left bs _

theorem setBytes_drop_after {buf bs : List Nat} {p : Nat} (h : p ≤ buf.length) :
    (setBytes buf p bs).drop (p + bs.length) = buf.drop (p + bs.length) := by
  have h1 : (setBytes buf p bs).drop (p + bs.length)
      = ((setBytes buf p bs).drop p).drop bs.length := by
    rw [List.drop_drop]
  rw [h1, setBytes_drop h, List.drop_left]

theorem setBytes_append {buf b1 b2 : List Nat} {p : Nat}
    (h : p + b1.length ≤ buf.length) :
    setBytes (setBytes buf p b1) (p + b1.length) b2
      = setBytes buf p (b1 ++ b2) := by
  have hp : p ≤ buf.length := by omega
  have htk : (setBytes buf p b1).take (p + b1.length)
      = buf.take p ++ b1 := by
    have hlen : (buf.take p ++ b1).length = p + b1.length := by simp; omega
    simp only [setBytes, List.append_assoc]
    rw [← List.append_assoc]
    exact List.take_left' hlen
  have hdr : (setBytes buf p b1).drop (p + b1.length + b2.length)
      = buf.drop (p + b1.length + b2.length) := by
    have h1 : (setBytes buf p b1).drop (p + b1.length + b2.length)
        = ((setBytes buf p b1).drop (p + b1.length)).drop b2.length := by
      rw [List.drop_drop]
    have h2 : buf.drop (p + b1.length + b2.length)
        = (buf.drop (p + b1.length)).drop b2.length := by
      rw [List.drop_drop]
    rw [h1, setBytes_drop_after hp, h2]
  show (setBytes buf p b1).take (p + b1.length) ++ b2
      ++ (setBytes buf p b1).drop (p + b1.length + b2.length)
    = setBytes buf p (b1 ++ b2)
  rw [htk, hdr]
  simp [setBytes, List.append_assoc, Nat.add_assoc]

/-! ## Operation specifications (in-range behaviour) -/

theorem Reader.read_spec {r : Reader} {w : Nat}
    (h : r.pos + w ≤ r.data.length) (hlt : r.data.length < W64) :
    r.read w = (.ok (fromBytesLE ((r.data.drop r.pos).take w)),
                ⟨r.data, r.pos + w⟩) := by
  have hsum : r.pos + w < W64 := by omega
  have hok : r.check_bounds w = .ok () :=
    Reader.check_bounds_ok hsum (by simpa [Reader.size] using h)
  simp [Reader.read, hok, mod_W64_of_lt hsum]

theorem Reader.read_error {r : Reader} {w : Nat}
    (hsum : r.pos + w < W64) (h : r.data.length < r.pos + w) :
    r.read w = (.error .underflow, r) := by
  have herr : r.check_bounds w = .error .underflow :=
    Reader.check_bounds_error hsum (by simpa [Reader.size] using h)
  simp [Reader.read, herr]

theorem Reader.read_string_spec {r : Reader} {len : Nat}
    (h : r.pos + len ≤ r.data.length) (hlt : r.data.length < W64) :
    r.read_string len = (.ok ((r.data.drop r.pos).take len),
                         ⟨r.data, r.pos + len⟩) := by
  have hsum : r.pos + len < W64 := by omega
  have hok : r.check_bounds len = .ok () :=
    Reader.check_bounds_ok hsum (by simpa [Reader.size] using h)
  simp [Reader.read_string, hok, mod_W64_of_lt hsum]

theorem Reader.read_string_error {r : Reader} {len : Nat}
    (hsum : r.pos + len < W64) (h : r.data.length < r.pos + len) :
    r.read_string len = (.error .underflow, r) := by
  have herr : r.check_bounds len = .error .underflow :=
    Reader.check_bounds_error hsum (by simpa [Reader.size] using h)
  simp [Reader.read_string, herr]

theorem Writer.write_spec {wr : Writer} {w v : Nat}
    (h : wr.pos + w ≤ wr.buf.length) (hlt : wr.buf.length < W64) :
    wr.write w v = (.ok (), ⟨setBytes wr.buf wr.pos (toBytesLE w v),
                             wr.pos + w⟩) := by
  have hsum : wr.pos + w < W64 := by omega
  have hok : wr.check w = .ok () :=
    Writer.check_ok hsum (by simpa [Writer.size] using h)
  simp [Writer.write, hok, mod_W64_of_lt hsum]

theorem Writer.write_error {wr : Writer} {w v : Nat}
    (hsum : wr.pos + w < W64) (h : wr.buf.length < wr.pos + w) :
    wr.write w v = (.error .overflow, wr) := by
  have herr : wr.check w = .error .overflow :=
    Writer.check_error hsum (by simpa [Writer.size] using h)
  simp [Writer.write, herr]

theorem Writer.write_bytes_spec {wr : Writer} {src : List Nat}
    (h : wr.pos + src.length ≤ wr.buf.length) (hlt : wr.buf.length < W64) :
    wr.write_bytes src = (.ok (), ⟨setBytes wr.buf wr.pos src,
                                   wr.pos + src.length⟩) := by
  have hsum : wr.pos + src.length < W64 := by omega
  have hok : wr.check src.length = .ok () :=
    Writer.check_ok hsum (by simpa [Writer.size] using h)
  simp [Writer.write_bytes, hok, mod_W64_of_lt hsum]

theorem Writer.write_bytes_error {wr : Writer} {src : List Nat}
    (hsum : wr.pos + src.length < W64) (h : wr.buf.length < wr.pos + src.length) :
    wr.write_bytes src = (.error .overflow, wr) := by
  have herr : wr.check src.length = .error .overflow :=
    Writer.check_error hsum (by simpa [Writer.size] using h)
  simp [Writer.write_bytes, herr]

theorem Writer.fill_bytes_spec {wr : Writer} {b n : Nat}
    (h : wr.pos + n ≤ wr.buf.length) (hlt : wr.buf.length < W64) :
    wr.fill_bytes b n = (.ok (), ⟨setBytes wr.buf wr.pos (List.replicate n b),
                                  wr.pos + n⟩) := by
  have hsum : wr.pos + n < W64 := by omega
  have hok : wr.check n = .ok () :=
    Writer.check_ok hsum (by simpa [Writer.size] using h)
  simp [Writer.fill_bytes, hok, mod_W64_of_lt hsum]

theorem Writer.fill_bytes_error {wr : Writer} {b n : Nat}
    (hsum : wr.pos + n < W64) (h : wr.buf.length < wr.pos + n) :
    wr.fill_bytes b n = (.error .overflow, wr) := by
  have herr : wr.check n = .error .overflow :=
    Writer.check_error hsum (by simpa [Writer.size] using h)
  simp [Writer.fill_bytes, herr]

/-- Reading w bytes placed by setBytes at the same offset recovers the
value (little-endian round trip through the buffer). -/
theorem Reader.read_over_setBytes {buf : List Nat} {p w v : Nat}
    (h : p + w ≤ buf.length) (hlt : buf.length < W64) (hv : v < 2 ^ (8 * w)) :
    Reader.read ⟨setBytes buf p (toBytesLE w v), p⟩ w
      = (.ok v, ⟨setBytes buf p (toBytesLE w v), p + w⟩) := by
  have hlen : (setBytes buf p (toBytesLE w v)).length = buf.length :=
    setBytes_length (by simpa using h)
  have hspec := Reader.read_spec (r := ⟨setBytes buf p (toBytesLE w v), p⟩)
    (w := w) (by simpa [hlen] using h) (by simpa [hlen] using hlt)
  have hslice : ((setBytes buf p (toBytesLE w v)).drop p).take w
      = toBytesLE w v := by
    have := @setBytes_slice buf (toBytesLE w v) p (by omega)
    simpa using this
  rw [hspec, hslice, fromBytesLE_toBytesLE_of_lt hv]

/-! ## memchr0 facts -/

theorem memchr0_some_lt {l : List Nat} {i : Nat} (h : memchr0 l = some i) :
    i < l.length := by
  induction l generalizing i with
  | nil => simp [memchr0] at h
  | cons b bs ih =>
    by_cases hb : b = 0
    · simp [memchr0, hb] at h
      simp only [List.length_cons]
      omega
    · simp [memchr0, hb] at h
      obtain ⟨j, hj, hji⟩ := h
      have := ih hj
      simp only [List.length_cons]
      omega

theorem memchr0_none_iff {l : List Nat} : memchr0 l = none ↔ ¬ 0 ∈ l := by
  induction l with
  | nil => simp [memchr0]
  | cons b bs ih =>
    by_cases hb : b = 0
    · simp [memchr0, hb]
    · simp [memchr0, hb, Option.map_eq_none, ih, Ne.symm hb]

theorem memchr0_append_zero (s t : List Nat) :
    memchr0 (s ++ 0 :: t) = some ((s.takeWhile (fun b => b != 0)).length) := by
  induction s with
  | nil => simp [memchr0, List.takeWhile]
  | cons b bs ih =>
    by_cases hb : b = 0
    · simp [memchr0, hb, List.takeWhile]
    · have hbne : (b != 0) = true := by simp [hb]
      simp [memchr0, hb, List.takeWhile, hbne, ih]

theorem memchr0_prior_nonzero {l : List Nat} {i : Nat} (h : memchr0 l = some i) :
    l.take i = l.takeWhile (fun b => b != 0) := by
  induction l generalizing i with
  | nil => simp [memchr0] at h
  | cons b bs ih =>
    by_cases hb : b = 0
    · simp [memchr0, hb] at h
      simp [← h, List.takeWhile, hb]
    · have hbne : (b != 0) = true := by simp [hb]
      simp [memchr0, hb] at h
      obtain ⟨j, hj, hji⟩ := h
      simp [← hji, List.takeWhile, hbne, ih hj]

/-! ## Atomicity and position-invariant helpers -/

theorem Reader.skip_atomic_inv {r : Reader} {n : Nat}
    (hpos : r.pos ≤ r.data.length) :
    (∀ e, (r.skip n).1 = .error e → (r.skip n).2 = r)
    ∧ (r.skip n).2.pos ≤ (r.skip n).2.data.length := by
  by_cases hc : (r.pos + n) % W64 > r.data.length
  · simp [Reader.skip, Reader.check_bounds, Reader.size, hc, hpos]
  · simp [Reader.skip, Reader.check_bounds, Reader.size, hc]
    exact Nat.le_of_not_lt hc

theorem Reader.seek_atomic_inv {r : Reader} {p : Nat}
    (hpos : r.pos ≤ r.data.length) :
    (∀ e, (r.seek p).1 = .error e → (r.seek p).2 = r)
    ∧ (r.seek p).2.pos ≤ (r.seek p).2.data.length := by
  by_cases hc : p > r.data.length
  · simp [Reader.seek, Reader.size, hc, hpos]
  · simp [Reader.seek, Reader.size, hc]
    exact Nat.le_of_not_lt hc

theorem Reader.read_atomic_inv {r : Reader} {w : Nat}
    (hpos : r.pos ≤ r.data.length) :
    (∀ e, (r.read w).1 = .error e → (r.read w).2 = r)
    ∧ (r.read w).2.pos ≤ (r.read w).2.data.length := by
  by_cases hc : (r.pos + w) % W64 > r.data.length
  · simp [Reader.read, Reader.check_bounds, Reader.size, hc, hpos]
  · simp [Reader.read, Reader.check_bounds, Reader.size, hc]
    exact Nat.le_of_not_lt hc

theorem Reader.read_string_atomic_inv {r : Reader} {len : Nat}
    (hpos : r.pos ≤ r.data.length) :
    (∀ e, (r.read_string len).1 = .error e → (r.read_string len).2 = r)
    ∧ (r.read_string len).2.pos ≤ (r.read_string len).2.data.length := by
  by_cases hc : (r.pos + len) % W64 > r.data.length
  · simp [Reader.read_string, Reader.check_bounds, Reader.size, hc, hpos]
  · simp [Reader.read_string, Reader.check_bounds, Reader.size, hc]
    exact Nat.le_of_not_lt hc

theorem Reader.read_cstring_atomic_inv {r : Reader}
    (hpos : r.pos ≤ r.data.length) (hlt : r.data.length < W64) :
    (∀ e, (r.read_cstring).1 = .error e → (r.read_cstring).2 = r)
    ∧ (r.read_cstring).2.pos ≤ (r.read_cstring).2.data.length := by
  cases hm : memchr0 (r.data.drop r.pos) with
  | none => simp [Reader.read_cstring, hm, hpos]
  | some i =>
    have hi := memchr0_some_lt hm
    simp only [List.length_drop] at hi
    have hsum : r.pos + i + 1 ≤ r.data.length := by omega
    simp [Reader.read_cstring, hm, mod_W64_of_lt (by omega : r.pos + i + 1 < W64)]
    omega

theorem Writer.seek_atomicity {wr : Writer} {p : Nat}
    (hpos : wr.pos ≤ wr.buf.length) :
    (∀ e, (wr.seek p).1 = .error e → (wr.seek p).2 = wr)
    ∧ (wr.seek p).2.pos ≤ (wr.seek p).2.buf.length := by
  by_cases hc : p > wr.buf.length
  · simp [Writer.seek, Writer.size, hc, hpos]
  · simp [Writer.seek, Writer.size, hc]
    exact Nat.le_of_not_lt hc

theorem Writer.skip_atomicity {wr : Writer} {n : Nat}
    (hpos : wr.pos ≤ wr.buf.length) :
    (∀ e, (wr.skip n).1 = .error e → (wr.skip n).2 = wr)
    ∧ (wr.skip n).2.pos ≤ (wr.skip n).2.buf.length := by
  by_cases hc : (wr.pos + n) % W64 > wr.buf.length
  · simp [Writer.skip, Writer.check, Writer.size, hc, hpos]
  · simp [Writer.skip, Writer.check, Writer.size, hc]
    exact Nat.le_of_not_lt hc

theorem Writer.write_atomic_inv {wr : Writer} {w v : Nat}
    (hpos : wr.pos ≤ wr.buf.length) :
    (∀ e, (wr.write w v).1 = .error e → (wr.write w v).2 = wr)
    ∧ (wr.write w v).2.pos ≤ (wr.write w v).2.buf.length := by
  by_cases hc : (wr.pos + w) % W64 > wr.buf.length
  · have herr : wr.check w = .error .overflow := by
      simp [Writer.check, Writer.size, hc]
    simp [Writer.write, herr, hpos]
  · have hok : wr.check w = .ok () := by
      simp [Writer.check, Writer.size, hc]
    simp only [Writer.write, hok]
    refine ⟨fun e he => by simp at he, ?_⟩
    by_cases hin : wr.pos + w ≤ wr.buf.length
    · simp only [@setBytes_length wr.buf (toBytesLE w v) wr.pos (by simpa using hin)]
      exact Nat.le_of_not_lt hc
    · have hmod : (wr.pos + w) % W64 ≤ wr.pos + w := Nat.mod_le _ _
      simp only [setBytes, List.length_append, List.length_take,
        List.length_drop, toBytesLE_length]
      omega

theorem Writer.write_bytes_atomic_inv {wr : Writer} {src : List Nat}
    (hpos : wr.pos ≤ wr.buf.length) :
    (∀ e, (wr.write_bytes src).1 = .error e → (wr.write_bytes src).2 = wr)
    ∧ (wr.write_bytes src).2.pos ≤ (wr.write_bytes src).2.buf.length := by
  by_cases hc : (wr.pos + src.length) % W64 > wr.buf.length
  · have herr : wr.check src.length = .error .overflow := by
      simp [Writer.check, Writer.size, hc]
    simp [Writer.write_bytes, herr, hpos]
  · have hok : wr.check src.length = .ok () := by
      simp [Writer.check, Writer.size, hc]
    simp only [Writer.write_bytes, hok]
    refine ⟨fun e he => by simp at he, ?_⟩
    by_cases hin : wr.pos + src.length ≤ wr.buf.length
    · simp only [setBytes_length hin]
      exact Nat.le_of_not_lt hc
    · have hmod : (wr.pos + src.length) % W64 ≤ wr.pos + src.length :=
        Nat.mod_le _ _
      simp only [setBytes, List.length_append, List.length_take,
        List.length_drop]
      omega

theorem Writer.fill_bytes_atomic_inv {wr : Writer} {b n : Nat}
    (hpos : wr.pos ≤ wr.buf.length) :
    (∀ e, (wr.fill_bytes b n).1 = .error e → (wr.fill_bytes b n).2 = wr)
    ∧ (wr.fill_bytes b n).2.pos ≤ (wr.fill_bytes b n).2.buf.length := by
  by_cases hc : (wr.pos + n) % W64 > wr.buf.length
  · have herr : wr.check n = .error .overflow := by
      simp [Writer.check, Writer.size, hc]
    simp [Writer.fill_bytes, herr, hpos]
  · have hok : wr.check n = .ok () := by
      simp [Writer.check, Writer.size, hc]
    simp only [Writer.fill_bytes, hok]
    refine ⟨fun e he => by simp at he, ?_⟩
    by_cases hin : wr.pos + n ≤ wr.buf.length
    · simp only [@setBytes_length wr.buf (List.replicate n b) wr.pos
        (by simpa using hin)]
      exact Nat.le_of_not_lt hc
    · have hmod : (wr.pos + n) % W64 ≤ wr.pos + n := Nat.mod_le _ _
      simp only [setBytes, List.length_append, List.length_take,
        List.length_drop, List.length_replicate]
      omega

/-! ## Claim theorems -/

/-- C9: byteswap is an involution on every supported width (1, 2, 4 or 8
bytes): byteswap (byteswap v) = v for every value of that width; 1-byte
values are returned unchanged; floating-point values are swapped via their
bit pattern (the model represents them by that pattern, which is exactly
what the source manipulates), so the involution holds for them at the
bit-pattern level as well; and byteswap of the uint16 0x1234 is 0x3412. -/
theorem c9_byteswap_involution :
    (∀ w v : Nat, (w = 1 ∨ w = 2 ∨ w = 4 ∨ w = 8) → v < 2 ^ (8 * w) →
      byteswap w (byteswap w v) = v)
    ∧ (∀ v : Nat, byteswap 1 v = v)
    ∧ byteswap 2 0x1234 = 0x3412 := by
  refine ⟨fun w v hw hv => byteswap_byteswap hw hv, fun v => ?_, ?_⟩
  · simp [byteswap, byteswap_int]
  · decide

/-- Witness for C9 at the concrete input width 4, value 0xAABBCCDD. -/
theorem c9_witness :
    ((4 : Nat) = 1 ∨ (4 : Nat) = 2 ∨ (4 : Nat) = 4 ∨ (4 : Nat) = 8)
    ∧ (0xAABBCCDD : Nat) < 2 ^ (8 * 4)
    ∧ byteswap 4 (byteswap 4 0xAABBCCDD) = 0xAABBCCDD :=
  ⟨by decide, by norm_num,
    c9_byteswap_involution.1 4 0xAABBCCDD (by decide) (by norm_num)⟩

/-- C1: for every supported fixed width and every value of that width,
writing with write_le into a buffer with enough room and reading the same
bytes back with read_le returns the value, and likewise for write_be and
read_be; in particular writing the uint32 0x12345678 little-endian lays down
the bytes [0x78, 0x56, 0x34, 0x12] and big-endian lays down
[0x12, 0x34, 0x56, 0x78]. -/
theorem c1_endian_roundtrip :
    (∀ w v : Nat, ∀ wr : Writer, (w = 1 ∨ w = 2 ∨ w = 4 ∨ w = 8) →
      v < 2 ^ (8 * w) → wr.pos + w ≤ wr.buf.length → wr.buf.length < W64 →
      ((wr.write_le w v).1 = .ok ()
        ∧ (Reader.read_le ⟨(wr.write_le w v).2.buf, wr.pos⟩ w).1 = .ok v)
      ∧ ((wr.write_be w v).1 = .ok ()
        ∧ (Reader.read_be ⟨(wr.write_be w v).2.buf, wr.pos⟩ w).1 = .ok v))
    ∧ (Writer.write_le ⟨List.replicate 4 0, 0⟩ 4 0x12345678).2.buf
        = [0x78, 0x56, 0x34, 0x12]
    ∧ (Writer.write_be ⟨List.replicate 4 0, 0⟩ 4 0x12345678).2.buf
        = [0x12, 0x34, 0x56, 0x78] := by
  refine ⟨?_, by decide, by decide⟩
  intro w v wr hw hv hroom hlt
  constructor
  · rw [Writer.write_le, Writer.write_spec hroom hlt]
    refine ⟨rfl, ?_⟩
    rw [Reader.read_le, Reader.read_over_setBytes hroom hlt hv]
  · set v' := if 1 < w then byteswap w v else v with hv'
    have hv'lt : v' < 2 ^ (8 * w) := by
      rw [hv']
      split
      · rcases hw with hw | hw | hw | hw <;> subst hw
        · omega
        all_goals exact byteswap_lt (by norm_num) v
      · exact hv
    rw [Writer.write_be, ← hv', Writer.write_spec hroom hlt]
    refine ⟨rfl, ?_⟩
    rw [Reader.read_be, Reader.read_over_setBytes hroom hlt hv'lt]
    rcases Nat.lt_or_ge 1 w with h1 | h1
    · simp only [hv', if_pos h1]
      rcases hw with hw | hw | hw | hw <;> subst hw
      · omega
      all_goals rw [byteswap_byteswap (by norm_num) hv]
    · simp [hv', Nat.not_lt.mpr h1]

/-- Witness for C1 at the concrete input width 2, value 0x1234, a 3-byte
buffer with the cursor at position 1. -/
theorem c1_witness :
    ((Writer.write_le ⟨[0, 0, 0], 1⟩ 2 0x1234).1 = .ok ()
      ∧ (Reader.read_le ⟨(Writer.write_le ⟨[0, 0, 0], 1⟩ 2 0x1234).2.buf, 1⟩ 2).1
          = .ok 0x1234)
    ∧ ((Writer.write_be ⟨[0, 0, 0], 1⟩ 2 0x1234).1 = .ok ()
      ∧ (Reader.read_be ⟨(Writer.write_be ⟨[0, 0, 0], 1⟩ 2 0x1234).2.buf, 1⟩ 2).1
          = .ok 0x1234) :=
  c1_endian_roundtrip.1 2 0x1234 ⟨[0, 0, 0], 1⟩ (by decide) (by norm_num)
    (by decide) (by norm_num [W64])

/-- C7: peek, peek_le and peek_be return exactly the value the corresponding
read would return, fail in exactly the same cases, and leave the entire
cursor state (data and position) unchanged afterwards, on the success and on
the failure path alike; hence two consecutive peeks agree. -/
theorem c7_peek_semantics : ∀ (w : Nat) (r : Reader),
    (r.peek w).1 = (r.read w).1 ∧ (r.peek w).2 = r
    ∧ (r.peek_le w).1 = (r.read_le w).1 ∧ (r.peek_le w).2 = r
    ∧ (r.peek_be w).1 = (r.read_be w).1 ∧ (r.peek_be w).2 = r
    ∧ (r.peek w).2.peek w = r.peek w := by
  intro w r
  obtain ⟨data, pos⟩ := r
  by_cases hc : (pos + w) % W64 > data.length
  · simp [Reader.peek, Reader.peek_le, Reader.peek_be, Reader.read,
      Reader.read_le, Reader.read_be, Reader.check_bounds, Reader.size, hc]
  · simp [Reader.peek, Reader.peek_le, Reader.peek_be, Reader.read,
      Reader.read_le, Reader.read_be, Reader.check_bounds, Reader.size, hc]

/-- C2 is a code bug: check_bounds computes position_ + bytes in size_t
arithmetic, which wraps modulo 2^64, so a skip (or read) whose count is
close to SIZE_MAX passes the bounds check even though it vastly exceeds
remaining().  Concretely, on a 10-byte region at position 1, skip of
2^64 - 1 bytes does not throw (the claim demands Underflow since
n > remaining() = 9) and wraps the position to 0; a read_bytes with such a
count would memcpy out of bounds after the same spurious check. -/
theorem c2_skip_wrap_check_bug :
    Reader.skip ⟨List.replicate 10 0, 1⟩ (W64 - 1)
        = (.ok (), ⟨List.replicate 10 0, 0⟩)
    ∧ W64 - 1 > Reader.remaining ⟨List.replicate 10 0, 1⟩ := by
  constructor
  · have hmod : (1 + (W64 - 1)) % W64 = 0 := by norm_num [W64]
    simp [Reader.skip, Reader.check_bounds, Reader.size, hmod]
  · norm_num [Reader.remaining, Reader.size, W64]

/-- Counterexample to C3 as stated: on the 5-byte region
[100, 0, 0, 0, 0] (little-endian length prefix 100, then a single byte),
read_sized_string_le fails with Underflow — the body is insufficient — yet
the position afterwards is 4, not the pre-call 0: the composite operation is
not atomic. -/
theorem c3_counterexample :
    (Reader.read_sized_string_le ⟨[100, 0, 0, 0, 0], 0⟩).1
        = .error .underflow
    ∧ (Reader.read_sized_string_le ⟨[100, 0, 0, 0, 0], 0⟩).2.pos = 4 := by
  constructor <;> rfl

/-- C3 (amended): every primitive cursor operation (seek, skip, read,
read_string, read_cstring on the Reader; seek, skip, write, write_bytes,
fill_bytes on the Writer) maintains 0 ≤ position ≤ size and fails
atomically, leaving the state exactly as before the call.  The composite
sized-string operations are only prefix-atomic: when read_sized_string_le
fails after its 4-byte length prefix was read, the position is left
advanced by 4 (and when write_sized_string_le fails after its prefix was
written, the prefix bytes are already stored and the position is advanced
by 4); the position invariant still holds at every observable point. -/
theorem c3_position_invariant :
    (∀ (r : Reader) (n : Nat), r.pos ≤ r.data.length →
      (∀ e, (r.skip n).1 = .error e → (r.skip n).2 = r)
      ∧ (r.skip n).2.pos ≤ (r.skip n).2.data.length)
    ∧ (∀ (r : Reader) (p : Nat), r.pos ≤ r.data.length →
      (∀ e, (r.seek p).1 = .error e → (r.seek p).2 = r)
      ∧ (r.seek p).2.pos ≤ (r.seek p).2.data.length)
    ∧ (∀ (r : Reader) (w : Nat), r.pos ≤ r.data.length →
      (∀ e, (r.read w).1 = .error e → (r.read w).2 = r)
      ∧ (r.read w).2.pos ≤ (r.read w).2.data.length)
    ∧ (∀ (r : Reader) (len : Nat), r.pos ≤ r.data.length →
      (∀ e, (r.read_string len).1 = .error e → (r.read_string len).2 = r)
      ∧ (r.read_string len).2.pos ≤ (r.read_string len).2.data.length)
    ∧ (∀ r : Reader, r.pos ≤ r.data.length → r.data.length < W64 →
      (∀ e, (r.read_cstring).1 = .error e → (r.read_cstring).2 = r)
      ∧ (r.read_cstring).2.pos ≤ (r.read_cstring).2.data.length)
    ∧ (∀ (wr : Writer) (p : Nat), wr.pos ≤ wr.buf.length →
      (∀ e, (wr.seek p).1 = .error e → (wr.seek p).2 = wr)
      ∧ (wr.seek p).2.pos ≤ (wr.seek p).2.buf.length)
    ∧ (∀ (wr : Writer) (n : Nat), wr.pos ≤ wr.buf.length →
      (∀ e, (wr.skip n).1 = .error e → (wr.skip n).2 = wr)
      ∧ (wr.skip n).2.pos ≤ (wr.skip n).2.buf.length)
    ∧ (∀ (wr : Writer) (w v : Nat), wr.pos ≤ wr.buf.length →
      (∀ e, (wr.write w v).1 = .error e → (wr.write w v).2 = wr)
      ∧ (wr.write w v).2.pos ≤ (wr.write w v).2.buf.length)
    ∧ (∀ (wr : Writer) (src : List Nat), wr.pos ≤ wr.buf.length →
      (∀ e, (wr.write_bytes src).1 = .error e → (wr.write_bytes src).2 = wr)
      ∧ (wr.write_bytes src).2.pos ≤ (wr.write_bytes src).2.buf.length)
    ∧ (∀ (wr : Writer) (b n : Nat), wr.pos ≤ wr.buf.length →
      (∀ e, (wr.fill_bytes b n).1 = .error e → (wr.fill_bytes b n).2 = wr)
      ∧ (wr.fill_bytes b n).2.pos ≤ (wr.fill_bytes b n).2.buf.length)
    ∧ (∀ r : Reader, r.pos ≤ r.data.length →
      (r.read_sized_string_le).2.pos ≤ (r.read_sized_string_le).2.data.length
      ∧ (∀ e, (r.read_sized_string_le).1 = .error e →
          (r.read_sized_string_le).2 = r
          ∨ (r.read_sized_string_le).2 = ⟨r.data, (r.pos + 4) % W64⟩))
    ∧ (∀ (wr : Writer) (s : List Nat), wr.pos ≤ wr.buf.length →
      (wr.write_sized_string_le s).2.pos
        ≤ (wr.write_sized_string_le s).2.buf.length
      ∧ (∀ e, (wr.write_sized_string_le s).1 = .error e →
          (wr.write_sized_string_le s).2 = wr
          ∨ (wr.write_sized_string_le s).2
              = ⟨setBytes wr.buf wr.pos (toBytesLE 4 (s.length % 2 ^ 32)),
                 (wr.pos + 4) % W64⟩)) := by
  refine ⟨fun r n h => Reader.skip_atomic_inv h,
    fun r p h => Reader.seek_atomic_inv h,
    fun r w h => Reader.read_atomic_inv h,
    fun r len h => Reader.read_string_atomic_inv h,
    fun r h hlt => Reader.read_cstring_atomic_inv h hlt,
    fun wr p h => Writer.seek_atomicity h,
    fun wr n h => Writer.skip_atomicity h,
    fun wr w v h => Writer.write_atomic_inv h,
    fun wr src h => Writer.write_bytes_atomic_inv h,
    fun wr b n h => Writer.fill_bytes_atomic_inv h,
    ?_, ?_⟩
  · intro r hpos
    by_cases hc : (r.pos + 4) % W64 > r.data.length
    · have herr : r.check_bounds 4 = .error .underflow := by
        simp [Reader.check_bounds, Reader.size, hc]
      simp [Reader.read_sized_string_le, Reader.read_le, Reader.read, herr,
        hpos]
    · have hok : r.check_bounds 4 = .ok () := by
        simp [Reader.check_bounds, Reader.size, hc]
      simp only [Reader.read_sized_string_le, Reader.read_le, Reader.read, hok]
      have hpos' : ((⟨r.data, (r.pos + 4) % W64⟩ : Reader)).pos
          ≤ ((⟨r.data, (r.pos + 4) % W64⟩ : Reader)).data.length :=
        Nat.le_of_not_lt hc
      have h := @Reader.read_string_atomic_inv
        ⟨r.data, (r.pos + 4) % W64⟩
        (fromBytesLE ((r.data.drop r.pos).take 4)) hpos'
      exact ⟨h.2, fun e he => .inr (h.1 e he)⟩
  · intro wr s hpos
    by_cases hc : (wr.pos + 4) % W64 > wr.buf.length
    · have herr : wr.check 4 = .error .overflow := by
        simp [Writer.check, Writer.size, hc]
      simp [Writer.write_sized_string_le, Writer.write_le, Writer.write, herr,
        hpos]
    · have hok : wr.check 4 = .ok () := by
        simp [Writer.check, Writer.size, hc]
      simp only [Writer.write_sized_string_le, Writer.write_le, Writer.write,
        hok]
      have hpos' : ((⟨setBytes wr.buf wr.pos
            (toBytesLE 4 (s.length % 2 ^ 32)), (wr.pos + 4) % W64⟩ :
            Writer)).pos
          ≤ ((⟨setBytes wr.buf wr.pos (toBytesLE 4 (s.length % 2 ^ 32)),
            (wr.pos + 4) % W64⟩ : Writer)).buf.length := by
        simp only []
        by_cases hin : wr.pos + 4 ≤ wr.buf.length
        · rw [@setBytes_length wr.buf (toBytesLE 4 (s.length % 2 ^ 32)) wr.pos
            (by simpa using hin)]
          exact Nat.le_of_not_lt hc
        · have hmod : (wr.pos + 4) % W64 ≤ wr.pos + 4 := Nat.mod_le _ _
          simp only [setBytes, List.length_append, List.length_take,
            List.length_drop, toBytesLE_length]
          omega
      have h := @Writer.write_bytes_atomic_inv
        ⟨setBytes wr.buf wr.pos (toBytesLE 4 (s.length % 2 ^ 32)),
          (wr.pos + 4) % W64⟩ s hpos'
      exact ⟨h.2, fun e he => .inr (h.1 e he)⟩

/-- Witness for the amended C3 at a concrete input: the non-atomic
read_sized_string_le on the counterexample buffer still respects the
position invariant and lands exactly 4 bytes in. -/
theorem c3_witness :
    (0 : Nat) ≤ ([100, 0, 0, 0, 0] : List Nat).length
    ∧ (Reader.read_sized_string_le ⟨[100, 0, 0, 0, 0], 0⟩).2.pos
        ≤ (Reader.read_sized_string_le ⟨[100, 0, 0, 0, 0], 0⟩).2.data.length :=
  ⟨by decide,
    (c3_position_invariant.2.2.2.2.2.2.2.2.2.2.1
      ⟨[100, 0, 0, 0, 0], 0⟩ (by decide)).1⟩

/-- Counterexample to C4 as stated: two explicit lengths for which the claim
predicts OutOfRange (offset + length > size) but subview succeeds.  With
length = 2^64 - 1 the sentinel branch treats it as extend-to-end on a
10-byte region, and with length = 2^64 - 3 at offset 5 the size_t sum
offset + length wraps to 2 and passes the extent check. -/
theorem c4_counterexample :
    (Reader.subview ⟨List.replicate 10 0, 0⟩ 0 (W64 - 1)).1
        = .ok ⟨List.replicate 10 0, 0⟩
    ∧ (0 : Nat) + (W64 - 1) > 10
    ∧ (Reader.subview ⟨List.replicate 10 0, 0⟩ 5 (W64 - 3)).1.isOk = true
    ∧ (5 : Nat) + (W64 - 3) > 10 := by
  refine ⟨rfl, by norm_num [W64], ?_, by norm_num [W64]⟩
  rfl

/-- C4 (amended): for an explicit length other than the SIZE_MAX sentinel
(which instead means extend-to-end, see C10), subview fails — always with
OutOfRange and with the parent state untouched — exactly when
offset > size or the size_t sum offset + length (reduced mod 2^64) exceeds
size; whenever offset + length ≤ size holds without wrap-around the result
is a cursor over exactly the parent bytes [offset, offset + length), of size
length, at position 0.  Both the Reader and the Writer subview behave this
way, and creating a subview never mutates the parent. -/
theorem c4_subview_checked :
    (∀ (r : Reader) (off len : Nat), len ≠ W64 - 1 → r.data.length < W64 →
      (r.subview off len).2 = r
      ∧ ((r.subview off len).1.isOk = false
          ↔ (off > r.data.length ∨ (off + len) % W64 > r.data.length))
      ∧ (∀ e, (r.subview off len).1 = .error e → e = .outOfRange)
      ∧ (off + len ≤ r.data.length →
          (r.subview off len).1 = .ok ⟨(r.data.drop off).take len, 0⟩
          ∧ ((r.data.drop off).take len).length = len))
    ∧ (∀ (wr : Writer) (off len : Nat), len ≠ W64 - 1 → wr.buf.length < W64 →
      (wr.subview off len).2 = wr
      ∧ ((wr.subview off len).1.isOk = false
          ↔ (off > wr.buf.length ∨ (off + len) % W64 > wr.buf.length))
      ∧ (∀ e, (wr.subview off len).1 = .error e → e = .outOfRange)
      ∧ (off + len ≤ wr.buf.length →
          (wr.subview off len).1 = .ok ⟨(wr.buf.drop off).take len, 0⟩
          ∧ ((wr.buf.drop off).take len).length = len)) := by
  constructor
  · intro r off len hlen hlt
    by_cases h1 : off > r.data.length
    · have hvac : ¬ off + len ≤ r.data.length := by omega
      simp [Reader.subview, Reader.size, h1, hvac, Except.isOk, Except.toBool]
    · by_cases h2 : (off + len) % W64 > r.data.length
      · have hvac : ¬ off + len ≤ r.data.length := by
          intro hle
          rw [mod_W64_of_lt (by omega)] at h2
          omega
        simp [Reader.subview, Reader.size, h1, h2, hlen, hvac, Except.isOk, Except.toBool]
      · refine ⟨by simp [Reader.subview, Reader.size, h1, h2, hlen], ?_, ?_, ?_⟩
        · simp [Reader.subview, Reader.size, h1, h2, hlen, Except.isOk, Except.toBool]
        · simp [Reader.subview, Reader.size, h1, h2, hlen]
        · intro hle
          refine ⟨by simp [Reader.subview, Reader.size, h1, h2, hlen], ?_⟩
          simp only [List.length_take, List.length_drop]
          omega
  · intro wr off len hlen hlt
    by_cases h1 : off > wr.buf.length
    · have hvac : ¬ off + len ≤ wr.buf.length := by omega
      simp [Writer.subview, Writer.size, h1, hvac, Except.isOk, Except.toBool]
    · by_cases h2 : (off + len) % W64 > wr.buf.length
      · have hvac : ¬ off + len ≤ wr.buf.length := by
          intro hle
          rw [mod_W64_of_lt (by omega)] at h2
          omega
        simp [Writer.subview, Writer.size, h1, h2, hlen, hvac, Except.isOk, Except.toBool]
      · refine ⟨by simp [Writer.subview, Writer.size, h1, h2, hlen], ?_, ?_, ?_⟩
        · simp [Writer.subview, Writer.size, h1, h2, hlen, Except.isOk, Except.toBool]
        · simp [Writer.subview, Writer.size, h1, h2, hlen]
        · intro hle
          refine ⟨by simp [Writer.subview, Writer.size, h1, h2, hlen], ?_⟩
          simp only [List.length_take, List.length_drop]
          omega

/-- Witness for the amended C4 using the concrete example of the claim: a
100-byte region with buffer[i] = i; subview(10, 20) has size 20, position 0,
covers bytes 10..29, leaves the parent (at position 7) untouched, and its
first one-byte read returns 10. -/
theorem c4_witness :
    (20 : Nat) ≠ W64 - 1
    ∧ (Reader.subview ⟨List.range 100, 7⟩ 10 20).1
        = .ok ⟨((List.range 100).drop 10).take 20, 0⟩
    ∧ (((List.range 100).drop 10).take 20).length = 20
    ∧ (Reader.subview ⟨List.range 100, 7⟩ 10 20).2 = ⟨List.range 100, 7⟩
    ∧ (Reader.read ⟨((List.range 100).drop 10).take 20, 0⟩ 1).1 = .ok 10 := by
  have h := c4_subview_checked.1 ⟨List.range 100, 7⟩ 10 20
    (by norm_num [W64]) (by simp [W64_eq])
  exact ⟨by norm_num [W64], (h.2.2.2 (by simp)).1, (h.2.2.2 (by simp)).2,
    h.1, by rfl⟩

/-- C10: the subview length parameter treats SIZE_MAX (= 2^64 - 1) as the
omitted-length sentinel: on any region with size ≥ 1 and offset ≤ size,
subview(offset, SIZE_MAX) does not fail even though offset + SIZE_MAX
exceeds size; it returns a cursor over the bytes from offset to the end of
the region, of size size - offset, leaving the parent untouched — so a
caller cannot actually request a subview of that literal length.  This
holds for the Reader and the Writer alike. -/
theorem c10_subview_sentinel :
    (∀ (r : Reader) (offset : Nat), 1 ≤ r.data.length → r.data.length < W64 →
      offset ≤ r.data.length →
      (r.subview offset (W64 - 1)).1 = .ok ⟨r.data.drop offset, 0⟩
      ∧ (r.data.drop offset).length = r.data.length - offset
      ∧ (r.subview offset (W64 - 1)).2 = r)
    ∧ (∀ (wr : Writer) (offset : Nat), 1 ≤ wr.buf.length →
      wr.buf.length < W64 → offset ≤ wr.buf.length →
      (wr.subview offset (W64 - 1)).1 = .ok ⟨wr.buf.drop offset, 0⟩
      ∧ (wr.buf.drop offset).length = wr.buf.length - offset
      ∧ (wr.subview offset (W64 - 1)).2 = wr) := by
  constructor
  · intro r offset hsz hlt hoff
    have h1 : ¬ offset > r.data.length := by omega
    have h2 : ¬ (offset + (r.data.length - offset)) % W64 > r.data.length := by
      rw [(by omega : offset + (r.data.length - offset) = r.data.length),
        mod_W64_of_lt hlt]
      omega
    have htake : (r.data.drop offset).take (r.data.length - offset)
        = r.data.drop offset := by
      apply List.take_of_length_le
      simp
    refine ⟨?_, by simp, ?_⟩
    · simp [Reader.subview, Reader.size, h1, h2, htake]
    · simp [Reader.subview, Reader.size, h1, h2]
  · intro wr offset hsz hlt hoff
    have h1 : ¬ offset > wr.buf.length := by omega
    have h2 : ¬ (offset + (wr.buf.length - offset)) % W64 > wr.buf.length := by
      rw [(by omega : offset + (wr.buf.length - offset) = wr.buf.length),
        mod_W64_of_lt hlt]
      omega
    have htake : (wr.buf.drop offset).take (wr.buf.length - offset)
        = wr.buf.drop offset := by
      apply List.take_of_length_le
      simp
    refine ⟨?_, by simp, ?_⟩
    · simp [Writer.subview, Writer.size, h1, h2, htake]
    · simp [Writer.subview, Writer.size, h1, h2]

/-- Witness for C10 at a concrete input: a 10-byte region with the parent at
position 2 and offset 4. -/
theorem c10_witness :
    (1 : Nat) ≤ (List.range 10).length
    ∧ (Reader.subview ⟨List.range 10, 2⟩ 4 (W64 - 1)).1
        = .ok ⟨(List.range 10).drop 4, 0⟩
    ∧ ((List.range 10).drop 4).length = (List.range 10).length - 4
    ∧ (Reader.subview ⟨List.range 10, 2⟩ 4 (W64 - 1)).2 = ⟨List.range 10, 2⟩ :=
  ⟨by simp,
    (c10_subview_sentinel.1 ⟨List.range 10, 2⟩ 4 (by simp) (by simp [W64_eq])
      (by simp)).1,
    (c10_subview_sentinel.1 ⟨List.range 10, 2⟩ 4 (by simp) (by simp [W64_eq])
      (by simp)).2.1,
    (c10_subview_sentinel.1 ⟨List.range 10, 2⟩ 4 (by simp) (by simp [W64_eq])
      (by simp)).2.2⟩

/-! ## The alignment mask -/

theorem testBit_W64_sub_two_pow {k : Nat} (hk : k ≤ 64) (i : Nat) :
    (W64 - 2 ^ k).testBit i = decide (k ≤ i ∧ i < 64) := by
  have hprod : 2 ^ k * 2 ^ (64 - k) = W64 := by
    rw [← pow_add, W64]
    congr 1
    omega
  have hsplit : W64 - 2 ^ k = 2 ^ k * (2 ^ (64 - k) - 1) + 0 := by
    rw [Nat.mul_sub, hprod, Nat.mul_one, Nat.add_zero]
  rw [hsplit, Nat.testBit_mul_pow_two_add _ (show (0 : Nat) < 2 ^ k by positivity) i]
  by_cases hik : i < k
  · have hna : ¬ (k ≤ i ∧ i < 64) := by omega
    simp [hik, hna]
  · rw [if_neg hik, Nat.testBit_two_pow_sub_one, decide_eq_decide]
    omega

theorem two_pow_sub_mask {k : Nat} (hk : k ≤ 64) :
    (W64 - 1) ^^^ (2 ^ k - 1) = W64 - 2 ^ k := by
  apply Nat.eq_of_testBit_eq
  intro i
  rw [Nat.testBit_xor, testBit_W64_sub_two_pow hk,
    (by rw [W64] : W64 - 1 = 2 ^ 64 - 1),
    Nat.testBit_two_pow_sub_one, Nat.testBit_two_pow_sub_one]
  by_cases h1 : i < k
  · have h2 : i < 64 := by omega
    have hna : ¬ (k ≤ i ∧ i < 64) := by omega
    simp [h1, h2, hna]
  · by_cases h2 : i < 64
    · have ha : k ≤ i ∧ i < 64 := by omega
      simp [h1, h2, ha]
    · have hna : ¬ (k ≤ i ∧ i < 64) := by omega
      simp [h1, h2, hna]

theorem and_W64_sub_two_pow {x k : Nat} (hk : k ≤ 64) (hx : x < W64) :
    x &&& (W64 - 2 ^ k) = 2 ^ k * (x / 2 ^ k) := by
  apply Nat.eq_of_testBit_eq
  intro i
  have hrhs : (2 ^ k * (x / 2 ^ k)).testBit i
      = if i < k then false else x.testBit i := by
    rw [(by rw [Nat.add_zero] : 2 ^ k * (x / 2 ^ k) = 2 ^ k * (x / 2 ^ k) + 0),
      Nat.testBit_mul_pow_two_add _ (show (0 : Nat) < 2 ^ k by positivity) i]
    by_cases h1 : i < k
    · simp [h1]
    · rw [if_neg h1, if_neg h1, ← Nat.shiftRight_eq_div_pow,
        Nat.testBit_shiftRight, (by omega : k + (i - k) = i)]
  rw [Nat.testBit_and, testBit_W64_sub_two_pow hk, hrhs]
  by_cases h1 : i < k
  · have hna : ¬ (k ≤ i ∧ i < 64) := by omega
    simp [h1, hna]
  · by_cases h2 : i < 64
    · have ha : k ≤ i ∧ i < 64 := by omega
      simp [h1, ha]
    · have hna : ¬ (k ≤ i ∧ i < 64) := by omega
      have hxi : x.testBit i = false := by
        apply Nat.testBit_lt_two_pow
        calc x < W64 := hx
          _ = 2 ^ 64 := by rw [W64]
          _ ≤ 2 ^ i := Nat.pow_le_pow_right (by norm_num) (by omega)
      simp [h1, hna, hxi]

/-- Under a power-of-two alignment 2^k with no size_t wrap-around, the mask
expression of align evaluates to rounding position up to a multiple of
2^k. -/
theorem alignedPos_eq {pos k : Nat} (hk : k < 64) (hsum : pos + 2 ^ k ≤ W64) :
    alignedPos pos (2 ^ k) = 2 ^ k * ((pos + 2 ^ k - 1) / 2 ^ k) := by
  have ha : (0 : Nat) < 2 ^ k := by positivity
  have hklt : (2 : Nat) ^ k < W64 := by
    calc (2 : Nat) ^ k < 2 ^ 64 := Nat.pow_lt_pow_right (by norm_num) hk
      _ = W64 := by rw [W64]
  have h1 : (pos + 2 ^ k + (W64 - 1)) % W64 = pos + 2 ^ k - 1 := by
    rw [(by omega : pos + 2 ^ k + (W64 - 1) = (pos + 2 ^ k - 1) + W64),
      Nat.add_mod_right, mod_W64_of_lt (by omega)]
  have h2 : (2 ^ k + (W64 - 1)) % W64 = 2 ^ k - 1 := by
    rw [(by omega : 2 ^ k + (W64 - 1) = (2 ^ k - 1) + W64),
      Nat.add_mod_right, mod_W64_of_lt (by omega)]
  rw [alignedPos, h1, h2, two_pow_sub_mask (le_of_lt hk),
    and_W64_sub_two_pow (le_of_lt hk) (by omega)]

/-- alignedPos is the least multiple of the alignment that is not below the
position. -/
theorem alignedPos_least {pos k : Nat} (hk : k < 64) (hsum : pos + 2 ^ k ≤ W64) :
    pos ≤ alignedPos pos (2 ^ k)
    ∧ alignedPos pos (2 ^ k) < pos + 2 ^ k
    ∧ 2 ^ k ∣ alignedPos pos (2 ^ k)
    ∧ (∀ m, 2 ^ k ∣ m → pos ≤ m → alignedPos pos (2 ^ k) ≤ m) := by
  rw [alignedPos_eq hk hsum]
  have ha : (0 : Nat) < 2 ^ k := by positivity
  have hdm := Nat.div_add_mod (pos + 2 ^ k - 1) (2 ^ k)
  have hr : (pos + 2 ^ k - 1) % 2 ^ k < 2 ^ k := Nat.mod_lt _ ha
  refine ⟨by omega, by omega, ⟨_, rfl⟩, ?_⟩
  intro m hdvd hposm
  obtain ⟨t, rfl⟩ := hdvd
  have hq : (pos + 2 ^ k - 1) / 2 ^ k ≤ t := by
    rw [Nat.div_le_iff_le_mul_add_pred ha]
    omega
  exact Nat.mul_le_mul_left _ hq

/-- Counterexample to C8 as stated: Reader::align delegates to seek, so an
aligned position beyond size throws std::out_of_range — the OutOfRange
kind — not UnderflowException: on a 1-byte region at position 1, align(2)
targets position 2 > 1 and raises OutOfRange, while the claim requires the
Underflow kind and explicitly excludes OutOfRange. -/
theorem c8_counterexample :
    (Reader.align ⟨[0], 1⟩ 2).1 = .error .outOfRange
    ∧ Err.outOfRange ≠ Err.underflow
    ∧ (Reader.align ⟨[0], 1⟩ 2).2 = ⟨[0], 1⟩ := by
  refine ⟨rfl, by decide, rfl⟩

/-- C8 (amended): align with a power-of-two alignment a = 2^k advances the
position to the smallest multiple of a that is ≥ the current position (a
no-op when already aligned, since then that multiple is the position
itself); the Reader merely moves — it never inspects the skipped bytes —
and fails with OutOfRange (align delegates to seek), not Underflow, exactly
when the aligned position would exceed size, leaving the position
unchanged; the Writer fills the padding [pos, aligned) with the fill byte
and fails with Overflow exactly when the aligned position would exceed its
size, also leaving its state unchanged. -/
theorem c8_align_semantics :
    (∀ pos k : Nat, k < 64 → pos + 2 ^ k ≤ W64 →
      pos ≤ alignedPos pos (2 ^ k)
      ∧ alignedPos pos (2 ^ k) < pos + 2 ^ k
      ∧ 2 ^ k ∣ alignedPos pos (2 ^ k)
      ∧ (∀ m, 2 ^ k ∣ m → pos ≤ m → alignedPos pos (2 ^ k) ≤ m)
      ∧ (2 ^ k ∣ pos → alignedPos pos (2 ^ k) = pos))
    ∧ (∀ (r : Reader) (k : Nat), k < 64 → r.pos + 2 ^ k ≤ W64 →
      (alignedPos r.pos (2 ^ k) ≤ r.data.length →
        r.align (2 ^ k) = (.ok (), ⟨r.data, alignedPos r.pos (2 ^ k)⟩))
      ∧ (alignedPos r.pos (2 ^ k) > r.data.length →
        r.align (2 ^ k) = (.error .outOfRange, r)))
    ∧ (∀ (wr : Writer) (k fill : Nat), k < 64 → wr.pos + 2 ^ k ≤ W64 →
      wr.pos ≤ wr.buf.length → wr.buf.length < W64 →
      (alignedPos wr.pos (2 ^ k) ≤ wr.buf.length →
        wr.align (2 ^ k) fill
          = (.ok (), ⟨setBytes wr.buf wr.pos
              (List.replicate (alignedPos wr.pos (2 ^ k) - wr.pos) fill),
              alignedPos wr.pos (2 ^ k)⟩))
      ∧ (alignedPos wr.pos (2 ^ k) > wr.buf.length →
        wr.align (2 ^ k) fill = (.error .overflow, wr))) := by
  refine ⟨?_, ?_, ?_⟩
  · intro pos k hk hsum
    obtain ⟨hge, hlt, hdvd, hleast⟩ := alignedPos_least hk hsum
    exact ⟨hge, hlt, hdvd, hleast,
      fun hp => Nat.le_antisymm (hleast pos hp le_rfl) hge⟩
  · intro r k hk hsum
    constructor
    · intro hle
      have hno : ¬ alignedPos r.pos (2 ^ k) > r.data.length := by omega
      simp [Reader.align, Reader.seek, Reader.size, hno]
    · intro hgt
      simp [Reader.align, Reader.seek, Reader.size, hgt]
  · intro wr k fill hk hsum hpos hlt
    obtain ⟨hge, hlt2, _, _⟩ := @alignedPos_least wr.pos k hk hsum
    have hpadeq : (alignedPos wr.pos (2 ^ k) + W64 - wr.pos) % W64
        = alignedPos wr.pos (2 ^ k) - wr.pos := by
      rw [(by omega : alignedPos wr.pos (2 ^ k) + W64 - wr.pos
          = (alignedPos wr.pos (2 ^ k) - wr.pos) + W64),
        Nat.add_mod_right, mod_W64_of_lt (by omega)]
    constructor
    · intro hle
      by_cases hpad : alignedPos wr.pos (2 ^ k) - wr.pos = 0
      · have hal : alignedPos wr.pos (2 ^ k) = wr.pos := by omega
        simp only [Writer.align, hpadeq, hpad, ne_eq, not_true_eq_false,
          if_false]
        rw [hal]
        have hbuf : setBytes wr.buf wr.pos (List.replicate 0 fill)
            = wr.buf := by
          simp [setBytes]
        rw [hbuf]
      · have hchk : (wr.pos + (alignedPos wr.pos (2 ^ k) - wr.pos)) % W64
            = alignedPos wr.pos (2 ^ k) := by
          rw [(by omega : wr.pos + (alignedPos wr.pos (2 ^ k) - wr.pos)
              = alignedPos wr.pos (2 ^ k)), mod_W64_of_lt (by omega)]
        have hok : wr.check (alignedPos wr.pos (2 ^ k) - wr.pos) = .ok () := by
          simp [Writer.check, Writer.size, hchk]
          omega
        simp only [Writer.align, hpadeq, hpad, ne_eq, not_false_eq_true,
          if_true, Writer.fill_bytes, hok, hchk]
    · intro hgt
      have hpad : alignedPos wr.pos (2 ^ k) - wr.pos ≠ 0 := by omega
      have hchk : (wr.pos + (alignedPos wr.pos (2 ^ k) - wr.pos)) % W64
          = alignedPos wr.pos (2 ^ k) := by
        rw [(by omega : wr.pos + (alignedPos wr.pos (2 ^ k) - wr.pos)
            = alignedPos wr.pos (2 ^ k)), mod_W64_of_lt (by omega)]
      have herr : wr.check (alignedPos wr.pos (2 ^ k) - wr.pos)
          = .error .overflow := by
        simp [Writer.check, Writer.size, hchk]
        omega
      simp [Writer.align, hpadeq, hpad, Writer.fill_bytes, herr]

/-- Witness for the amended C8: on a 6-byte region at position 1, align(4)
succeeds and moves the Reader to position 4. -/
theorem c8_witness :
    (2 : Nat) < 64 ∧ (1 : Nat) + 2 ^ 2 ≤ W64
    ∧ alignedPos 1 (2 ^ 2) ≤ ([0, 0, 0, 0, 0, 0] : List Nat).length
    ∧ Reader.align ⟨[0, 0, 0, 0, 0, 0], 1⟩ (2 ^ 2)
        = (.ok (), ⟨[0, 0, 0, 0, 0, 0], alignedPos 1 (2 ^ 2)⟩) := by
  refine ⟨by norm_num, by norm_num [W64], by decide, ?_⟩
  exact (c8_align_semantics.2.1 ⟨[0, 0, 0, 0, 0, 0], 1⟩ 2 (by norm_num)
    (by norm_num [W64])).1 (by decide)

/-! ## C-string helper facts -/

theorem memchr0_some_mem {l : List Nat} {i : Nat} (h : memchr0 l = some i) :
    0 ∈ l := by
  by_contra hmem
  rw [memchr0_none_iff.mpr hmem] at h
  cases h

theorem takeWhile_append_zero (s t : List Nat) :
    (s ++ 0 :: t).takeWhile (fun b => b != 0) = s.takeWhile (fun b => b != 0) := by
  induction s with
  | nil => simp [List.takeWhile]
  | cons b bs ih =>
    by_cases hb : b = 0
    · simp [List.takeWhile, hb]
    · have hbne : (b != 0) = true := by simp [hb]
      simp [List.takeWhile, hbne, ih]

theorem takeWhile_of_not_mem_zero {s : List Nat} (h : ¬ 0 ∈ s) :
    s.takeWhile (fun b => b != 0) = s := by
  induction s with
  | nil => simp
  | cons b bs ih =>
    simp only [List.mem_cons, not_or] at h
    have hbne : (b != 0) = true := by simp [Ne.symm h.1]
    simp [List.takeWhile, hbne, ih h.2]

theorem takeWhile_lt_of_mem_zero {s : List Nat} (h : 0 ∈ s) :
    (s.takeWhile (fun b => b != 0)).length < s.length := by
  induction s with
  | nil => simp at h
  | cons b bs ih =>
    by_cases hb : b = 0
    · simp [List.takeWhile, hb]
    · have hbne : (b != 0) = true := by simp [hb]
      have hmem : 0 ∈ bs := by
        rcases List.mem_cons.mp h with h0 | h0
        · omega
        · exact h0
      simp only [List.takeWhile, hbne, List.length_cons]
      have := ih hmem
      omega

theorem length_takeWhile_le_self (s : List Nat) :
    (s.takeWhile (fun b => b != 0)).length ≤ s.length := by
  induction s with
  | nil => simp
  | cons b bs ih =>
    by_cases hb : b = 0
    · simp [List.takeWhile, hb]
    · have hbne : (b != 0) = true := by simp [hb]
      simp only [List.takeWhile, hbne, List.length_cons]
      omega

/-- C5: read_cstring fails — with Underflow, leaving the cursor untouched —
exactly when no zero byte occurs in [position, size); and after
write_cstring s (the bytes of s followed by one zero byte) a read_cstring
from the same offset returns exactly the longest zero-free leading run of s
and advances past the first zero byte, so the round trip returns s itself
when s contains no zero byte and a strictly shorter leading run when s
contains an embedded zero byte. -/
theorem c5_cstring_roundtrip :
    (∀ r : Reader, r.pos ≤ r.data.length →
      ((r.read_cstring).1 = .error .underflow ↔ ¬ 0 ∈ r.data.drop r.pos)
      ∧ (∀ e, (r.read_cstring).1 = .error e → (r.read_cstring).2 = r))
    ∧ (∀ (s : List Nat) (wr : Writer), wr.pos + s.length + 1 ≤ wr.buf.length →
      wr.buf.length < W64 →
      (wr.write_cstring s).1 = .ok ()
      ∧ (Reader.read_cstring ⟨(wr.write_cstring s).2.buf, wr.pos⟩).1
          = .ok (s.takeWhile (fun b => b != 0))
      ∧ (Reader.read_cstring ⟨(wr.write_cstring s).2.buf, wr.pos⟩).2.pos
          = wr.pos + (s.takeWhile (fun b => b != 0)).length + 1
      ∧ (¬ 0 ∈ s → s.takeWhile (fun b => b != 0) = s)
      ∧ (0 ∈ s → (s.takeWhile (fun b => b != 0)).length < s.length)) := by
  constructor
  · intro r hpos
    cases hm : memchr0 (r.data.drop r.pos) with
    | none =>
      have hno := memchr0_none_iff.mp hm
      simp [Reader.read_cstring, hm, hno]
    | some i =>
      have hmem := memchr0_some_mem hm
      simp [Reader.read_cstring, hm, hmem]
  · intro s wr hroom hlt
    have hb1 : wr.pos + s.length ≤ wr.buf.length := by omega
    have hw1 := @Writer.write_bytes_spec wr s hb1 hlt
    have hlen1 : (setBytes wr.buf wr.pos s).length = wr.buf.length :=
      setBytes_length hb1
    have hw2 := @Writer.write_spec
      ⟨setBytes wr.buf wr.pos s, wr.pos + s.length⟩ 1 0
      (by simpa [hlen1] using hroom) (by simpa [hlen1] using hlt)
    have hcomb : setBytes (setBytes wr.buf wr.pos s) (wr.pos + s.length)
        (toBytesLE 1 0) = setBytes wr.buf wr.pos (s ++ [0]) := by
    -- toBytesLE 1 0 = [0]
      have h01 : toBytesLE 1 0 = [0] := rfl
      rw [h01]
      exact @setBytes_append wr.buf s [0] wr.pos hb1
    have hres : wr.write_cstring s
        = (.ok (), ⟨setBytes wr.buf wr.pos (s ++ [0]),
                    wr.pos + s.length + 1⟩) := by
      simp only [Writer.write_cstring, hw1, hw2, hcomb]
    rw [hres]
    refine ⟨rfl, ?_, ?_, fun h => takeWhile_of_not_mem_zero h,
      fun h => takeWhile_lt_of_mem_zero h⟩
    all_goals
      have hdrop : (setBytes wr.buf wr.pos (s ++ [0])).drop wr.pos
          = s ++ 0 :: wr.buf.drop (wr.pos + s.length + 1) := by
        rw [setBytes_drop (by omega)]
        simp [Nat.add_assoc]
      have hm : memchr0 ((setBytes wr.buf wr.pos (s ++ [0])).drop wr.pos)
          = some ((s.takeWhile (fun b => b != 0)).length) := by
        rw [hdrop, memchr0_append_zero]
      have htk : ((setBytes wr.buf wr.pos (s ++ [0])).drop wr.pos).take
            ((s.takeWhile (fun b => b != 0)).length)
          = s.takeWhile (fun b => b != 0) := by
        rw [memchr0_prior_nonzero hm, hdrop, takeWhile_append_zero]
    · simp [Reader.read_cstring, hm, htk]
    · have hlt2 : wr.pos + (s.takeWhile (fun b => b != 0)).length + 1 < W64 := by
        have := length_takeWhile_le_self s
        omega
      simp [Reader.read_cstring, hm, mod_W64_of_lt hlt2]

/-- Witness for C5 at a concrete input: the string [104, 0, 105] with an
embedded zero byte, written at position 1 of a 6-byte buffer, reads back as
its strictly shorter zero-free leading run [104]. -/
theorem c5_witness :
    (1 : Nat) + ([104, 0, 105] : List Nat).length + 1
        ≤ ([1, 1, 1, 1, 1, 1] : List Nat).length
    ∧ (Writer.write_cstring ⟨[1, 1, 1, 1, 1, 1], 1⟩ [104, 0, 105]).1 = .ok ()
    ∧ (Reader.read_cstring
        ⟨(Writer.write_cstring ⟨[1, 1, 1, 1, 1, 1], 1⟩ [104, 0, 105]).2.buf, 1⟩).1
        = .ok (([104, 0, 105] : List Nat).takeWhile (fun b => b != 0)) := by
  have h := c5_cstring_roundtrip.2 [104, 0, 105] ⟨[1, 1, 1, 1, 1, 1], 1⟩
    (by decide) (by simp [W64_eq])
  exact ⟨by decide, h.1, h.2.1⟩

/-! ## Dynamic list codec (C6) -/

/-- Concatenation of the per-element encodings, in list order: the byte
image that the write_vector loop lays down after the count prefix. -/
def encConcat {α : Type} (eBytes : α → List Nat) : List α → List Nat
  | [] => []
  | x :: xs => eBytes x ++ encConcat eBytes xs

theorem drop_take_swap (l : List Nat) (n m : Nat) :
    (l.take (n + m)).drop n = (l.drop n).take m := by
  rw [List.drop_take]
  congr 1
  omega

/-- The write_vector element loop writes exactly the concatenated element
encodings, advancing past them, when every element writer behaves like the
dispatched write_field and there is room. -/
theorem writeElems_spec {α : Type} (eBytes : α → List Nat)
    (wf : Writer → α → Except Err Unit × Writer) :
    ∀ (xs : List α) (w : Writer),
      (∀ x ∈ xs, ∀ w1 : Writer,
        w1.pos + (eBytes x).length ≤ w1.buf.length → w1.buf.length < W64 →
        wf w1 x = (.ok (), ⟨setBytes w1.buf w1.pos (eBytes x),
                            w1.pos + (eBytes x).length⟩)) →
      w.pos + (encConcat eBytes xs).length ≤ w.buf.length →
      w.buf.length < W64 →
      writeElems wf xs w
        = (.ok (), ⟨setBytes w.buf w.pos (encConcat eBytes xs),
                    w.pos + (encConcat eBytes xs).length⟩) := by
  intro xs
  induction xs with
  | nil =>
    intro w hw hroom hlt
    simp [writeElems, encConcat, setBytes]
  | cons x xs ih =>
    intro w hw hroom hlt
    simp only [encConcat, List.length_append] at hroom
    have hx := hw x (List.mem_cons_self ..) w (by omega) hlt
    have hlen1 : (setBytes w.buf w.pos (eBytes x)).length = w.buf.length :=
      setBytes_length (by omega)
    have hb1 : (⟨setBytes w.buf w.pos (eBytes x),
          w.pos + (eBytes x).length⟩ : Writer).pos
          + (encConcat eBytes xs).length
        ≤ (⟨setBytes w.buf w.pos (eBytes x),
          w.pos + (eBytes x).length⟩ : Writer).buf.length := by
      simp only [hlen1]
      omega
    have hl1 : (⟨setBytes w.buf w.pos (eBytes x),
          w.pos + (eBytes x).length⟩ : Writer).buf.length < W64 := by
      simp only [hlen1]
      exact hlt
    have hrest := ih
      (fun y hy => hw y (List.mem_cons_of_mem _ hy))
      (w := ⟨setBytes w.buf w.pos (eBytes x), w.pos + (eBytes x).length⟩)
      hb1 hl1
    simp only [writeElems, hx, hrest]
    rw [setBytes_append (by omega)]
    simp only [encConcat, List.length_append, Prod.mk.injEq, Writer.mk.injEq,
      true_and]
    omega

/-- The read_vector element loop decodes exactly the elements whose
concatenated encodings sit at the cursor, when every element reader behaves
like the dispatched read_field. -/
theorem readElems_spec {α : Type} (eBytes : α → List Nat)
    (rf : Reader → Except Err α × Reader) :
    ∀ (xs : List α) (r : Reader),
      (∀ x ∈ xs, ∀ r1 : Reader,
        r1.pos + (eBytes x).length ≤ r1.data.length → r1.data.length < W64 →
        (r1.data.drop r1.pos).take (eBytes x).length = eBytes x →
        rf r1 = (.ok x, ⟨r1.data, r1.pos + (eBytes x).length⟩)) →
      r.pos + (encConcat eBytes xs).length ≤ r.data.length →
      r.data.length < W64 →
      (r.data.drop r.pos).take (encConcat eBytes xs).length
        = encConcat eBytes xs →
      readElems rf xs.length r
        = (.ok xs, ⟨r.data, r.pos + (encConcat eBytes xs).length⟩) := by
  intro xs
  induction xs with
  | nil =>
    intro r hr hroom hlt hslice
    simp [readElems, encConcat]
  | cons x xs ih =>
    intro r hr hroom hlt hslice
    simp only [encConcat, List.length_append] at hroom hslice
    have hs1 : (r.data.drop r.pos).take (eBytes x).length = eBytes x := by
      have h1 : (r.data.drop r.pos).take (eBytes x).length
          = ((r.data.drop r.pos).take
              ((eBytes x).length + (encConcat eBytes xs).length)).take
              (eBytes x).length := by
        rw [List.take_take]
        congr 1
        omega
      rw [h1, hslice]
      exact List.take_left ..
    have hs2 : (r.data.drop (r.pos + (eBytes x).length)).take
          (encConcat eBytes xs).length = encConcat eBytes xs := by
      have h1 : r.data.drop (r.pos + (eBytes x).length)
          = (r.data.drop r.pos).drop (eBytes x).length := by
        rw [List.drop_drop]
      have h2 : ((r.data.drop r.pos).drop (eBytes x).length).take
            (encConcat eBytes xs).length
          = (((r.data.drop r.pos).take
              ((eBytes x).length + (encConcat eBytes xs).length)).drop
              (eBytes x).length) := by
        rw [drop_take_swap]
      rw [h1, h2, hslice]
      exact List.drop_left ..
    have hx := hr x (List.mem_cons_self ..) r (by omega) hlt hs1
    have hrest := ih (fun y hy => hr y (List.mem_cons_of_mem _ hy))
      (r := ⟨r.data, r.pos + (eBytes x).length⟩)
      (by
        show r.pos + (eBytes x).length + (encConcat eBytes xs).length
          ≤ r.data.length
        omega)
      hlt hs2
    simp only [List.length_cons, readElems, hx, hrest, encConcat,
      List.length_append, Prod.mk.injEq, Reader.mk.injEq, true_and]
    omega

/-- C6: for every element type handled by the per-element field dispatch —
abstracted as an element writer and reader that lay down and read back a
fixed byte encoding of each element — and every element list whose length
fits in 32 bits, write_vector writes the 4-byte little-endian count followed
by each element in order, and read_vector reads the count back and decodes
exactly that many elements, returning the original list; with the empty
list this succeeds and yields the empty list, not an error. -/
theorem c6_vector_roundtrip {α : Type} (eBytes : α → List Nat)
    (wf : Writer → α → Except Err Unit × Writer)
    (rf : Reader → Except Err α × Reader) :
    ∀ (xs : List α) (wr : Writer),
      (∀ x ∈ xs, ∀ w1 : Writer,
        w1.pos + (eBytes x).length ≤ w1.buf.length → w1.buf.length < W64 →
        wf w1 x = (.ok (), ⟨setBytes w1.buf w1.pos (eBytes x),
                            w1.pos + (eBytes x).length⟩)) →
      (∀ x ∈ xs, ∀ r1 : Reader,
        r1.pos + (eBytes x).length ≤ r1.data.length → r1.data.length < W64 →
        (r1.data.drop r1.pos).take (eBytes x).length = eBytes x →
        rf r1 = (.ok x, ⟨r1.data, r1.pos + (eBytes x).length⟩)) →
      xs.length < 2 ^ 32 →
      wr.pos + 4 + (encConcat eBytes xs).length ≤ wr.buf.length →
      wr.buf.length < W64 →
      write_vector wf wr xs
        = (.ok (), ⟨setBytes wr.buf wr.pos
            (toBytesLE 4 (xs.length % 2 ^ 32) ++ encConcat eBytes xs),
            wr.pos + 4 + (encConcat eBytes xs).length⟩)
      ∧ read_vector rf ⟨(write_vector wf wr xs).2.buf, wr.pos⟩
          = (.ok xs, ⟨(write_vector wf wr xs).2.buf,
                      wr.pos + 4 + (encConcat eBytes xs).length⟩) := by
  intro xs wr hw hr hn hroom hlt
  have hpre4 : (toBytesLE 4 (xs.length % 2 ^ 32)).length = 4 :=
    toBytesLE_length ..
  have hw0 := @Writer.write_spec wr 4 (xs.length % 2 ^ 32)
    (by omega) hlt
  have hlen1 : (setBytes wr.buf wr.pos
      (toBytesLE 4 (xs.length % 2 ^ 32))).length = wr.buf.length :=
    setBytes_length (by omega)
  have hwe := writeElems_spec eBytes wf xs
    (w := ⟨setBytes wr.buf wr.pos (toBytesLE 4 (xs.length % 2 ^ 32)),
      wr.pos + 4⟩) hw
    (by
      show wr.pos + 4 + (encConcat eBytes xs).length
        ≤ (setBytes wr.buf wr.pos (toBytesLE 4 (xs.length % 2 ^ 32))).length
      rw [hlen1]
      omega)
    (by
      show (setBytes wr.buf wr.pos (toBytesLE 4 (xs.length % 2 ^ 32))).length
        < W64
      rw [hlen1]
      exact hlt)
  have hcomb : setBytes (setBytes wr.buf wr.pos
        (toBytesLE 4 (xs.length % 2 ^ 32))) (wr.pos + 4)
        (encConcat eBytes xs)
      = setBytes wr.buf wr.pos
          (toBytesLE 4 (xs.length % 2 ^ 32) ++ encConcat eBytes xs) := by
    have h := @setBytes_append wr.buf (toBytesLE 4 (xs.length % 2 ^ 32))
      (encConcat eBytes xs) wr.pos (by omega)
    rw [hpre4] at h
    exact h
  have hwv : write_vector wf wr xs
      = (.ok (), ⟨setBytes wr.buf wr.pos
          (toBytesLE 4 (xs.length % 2 ^ 32) ++ encConcat eBytes xs),
          wr.pos + 4 + (encConcat eBytes xs).length⟩) := by
    simp only [write_vector, Writer.write_le, hw0, hwe, hcomb]
  refine ⟨hwv, ?_⟩
  rw [hwv]
  set B := setBytes wr.buf wr.pos
    (toBytesLE 4 (xs.length % 2 ^ 32) ++ encConcat eBytes xs) with hB
  have hBlen : B.length = wr.buf.length := by
    rw [hB]
    exact setBytes_length (by simp [hpre4]; omega)
  have hdropB : B.drop wr.pos
      = (toBytesLE 4 (xs.length % 2 ^ 32) ++ encConcat eBytes xs)
        ++ wr.buf.drop (wr.pos
          + (toBytesLE 4 (xs.length % 2 ^ 32) ++ encConcat eBytes xs).length) := by
    rw [hB]
    exact setBytes_drop (by omega)
  have hslice4 : (B.drop wr.pos).take 4 = toBytesLE 4 (xs.length % 2 ^ 32) := by
    rw [hdropB, List.append_assoc]
    exact List.take_left' hpre4
  have hr0 := Reader.read_spec (r := ⟨B, wr.pos⟩) (w := 4)
    (by simp only [hBlen]; omega) (by rw [hBlen]; exact hlt)
  have hval : fromBytesLE ((B.drop wr.pos).take 4) = xs.length := by
    rw [hslice4, fromBytesLE_toBytesLE]
    have h32 : (2 : Nat) ^ (8 * 4) = 4294967296 := by norm_num
    have h32b : (2 : Nat) ^ 32 = 4294967296 := by norm_num
    rw [h32]
    rw [h32b] at hn
    omega
  have hsliceE : (B.drop (wr.pos + 4)).take (encConcat eBytes xs).length
      = encConcat eBytes xs := by
    have h1 : B.drop (wr.pos + 4) = (B.drop wr.pos).drop 4 := by
      rw [List.drop_drop]
    rw [h1, hdropB, List.append_assoc, List.drop_left' hpre4]
    exact List.take_left ..
  have hre := readElems_spec eBytes rf xs (r := ⟨B, wr.pos + 4⟩) hr
    (by simp only [hBlen]; omega) (by rw [hBlen]; exact hlt) hsliceE
  simp only [read_vector, Reader.read_le, hr0, hval, hre]

/-- Witness for C6 at a concrete input: the uint32 list [5, 300] (elements
dispatched to the 4-byte native write/read of the little-endian host),
written at position 0 of a 12-byte buffer, round-trips through write_vector
and read_vector. -/
theorem c6_witness :
    write_vector (fun w x => w.write 4 x) ⟨List.replicate 12 0, 0⟩ [5, 300]
        = (.ok (), ⟨setBytes (List.replicate 12 0) 0
            (toBytesLE 4 (([5, 300] : List Nat).length % 2 ^ 32)
              ++ encConcat (toBytesLE 4) [5, 300]),
            0 + 4 + (encConcat (toBytesLE 4) [5, 300]).length⟩)
    ∧ read_vector (fun r => r.read 4)
        ⟨(write_vector (fun w x => w.write 4 x)
            ⟨List.replicate 12 0, 0⟩ [5, 300]).2.buf, 0⟩
        = (.ok [5, 300],
           ⟨(write_vector (fun w x => w.write 4 x)
              ⟨List.replicate 12 0, 0⟩ [5, 300]).2.buf,
            0 + 4 + (encConcat (toBytesLE 4) [5, 300]).length⟩) := by
  have h := c6_vector_roundtrip (toBytesLE 4) (fun w x => w.write 4 x)
    (fun r => r.read 4) [5, 300] ⟨List.replicate 12 0, 0⟩
    (fun x hx w1 hb hl => Writer.write_spec hb hl)
    (fun x hx r1 hb hl hs => by
      have hxlt : x < 2 ^ (8 * 4) := by
        rcases List.mem_cons.mp hx with h1 | h1
        · subst h1
          norm_num
        · rcases List.mem_cons.mp h1 with h2 | h2
          · subst h2
            norm_num
          · simp at h2
      have hb4 : r1.pos + 4 ≤ r1.data.length := by simpa using hb
      have hs4 : (r1.data.drop r1.pos).take 4 = toBytesLE 4 x := by
        simpa using hs
      show r1.read 4 = (.ok x, ⟨r1.data, r1.pos + (toBytesLE 4 x).length⟩)
      rw [Reader.read_spec hb4 hl, hs4, fromBytesLE_toBytesLE_of_lt hxlt]
      simp [toBytesLE_length])
    (by norm_num) (by simp [encConcat, W64_eq]) (by simp [W64_eq])
  exact h

end Bytestream
